import Mathlib

/-!
Verification development for the go-hep structured binary container engine.

The definitions below are a shallow embedding of the reader-side tree basket
engine (`rtree.rbasket.inflate`, `rtree.rbasket.loadRLeaf`), the byte cursor
(`rbytes.RBuffer`), the directory/key layer (`riofs.File.Put/Get/Keys`),
the Arrow table reference counting (`rarrow.rootTable`), and the histogram
booking service (`hbooksvc.hsvc`).  Bytes are modelled as `Nat` values
(< 256 by construction on the encoding side), machine 32-bit integers as
`Int` with explicit reduction modulo `2 ^ 32`.
-/

namespace Hep

/-- Error taxonomy of the engine (spec §7), restricted to the cases the
claims touch. -/
inductive HepError where
  | ioError
  | corruptBasket
  | shortBuffer
  | notFound
deriving DecidableEq, Repr

/-- Reduce a signed 32-bit value to its unsigned (two's complement) image. -/
def i32ToU32 (x : Int) : Nat := (x % 4294967296).toNat

/-- Interpret an unsigned 32-bit value as a signed (two's complement) one. -/
def u32ToI32 (n : Nat) : Int :=
  if n < 2147483648 then (n : Int) else (n : Int) - 4294967296

/-- A value representable as a signed 32-bit integer. -/
def i32Range (x : Int) : Prop := -2147483648 ≤ x ∧ x < 2147483648

instance (x : Int) : Decidable (i32Range x) := by
  unfold i32Range; infer_instance

/-- Big-endian 4-byte encoding of an unsigned 32-bit value. -/
def encodeU32 (n : Nat) : List Nat :=
  [n / 16777216 % 256, n / 65536 % 256, n / 256 % 256, n % 256]

/-- Big-endian 4-byte encoding of a signed 32-bit value. -/
def encodeI32 (x : Int) : List Nat := encodeU32 (i32ToU32 x)

/-- Big-endian concatenation of signed 32-bit encodings. -/
def encodeI32s : List Int → List Nat
  | [] => []
  | x :: xs => encodeI32 x ++ encodeI32s xs

/-- Byte cursor over a buffer (`rbytes.RBuffer`).

Modelled from the spec: the `rbytes` package is not part of the excerpted
sources (only its callers are); §4.1 of the spec describes it as a buffer
with a read position, an offset so that `Pos = c + off` (the key-header
length used when a key payload is loaded), and sticky error semantics:
once any operation fails every later operation is a no-op returning a
zero value. -/
structure RBuffer where
  data : List Nat
  c : Int
  off : Int
  err : Option HepError
deriving DecidableEq, Repr

/-- Current position of the cursor (`RBuffer.Pos`). -/
def RBuffer.pos (r : RBuffer) : Int := r.c + r.off

/-- Seek to an absolute position (`RBuffer.SetPos`). -/
def RBuffer.setPos (r : RBuffer) (p : Int) : RBuffer := { r with c := p - r.off }

/-- Reset the cursor onto a fresh buffer with the given offset
(`RBuffer.Reset`). -/
def RBuffer.reset (data : List Nat) (off : Int) : RBuffer :=
  { data := data, c := 0, off := off, err := none }

/-- Read one byte (`RBuffer.ReadU8`); sticky error, zero value on failure. -/
def RBuffer.readU8 (r : RBuffer) : Nat × RBuffer :=
  match r.err with
  | some _ => (0, r)
  | none =>
    if h : 0 ≤ r.c ∧ r.c.toNat < r.data.length then
      (r.data.get ⟨r.c.toNat, h.2⟩, { r with c := r.c + 1 })
    else
      (0, { r with err := some .shortBuffer })

/-- Read a big-endian signed 32-bit value (`RBuffer.ReadI32`); sticky
error, zero value on failure. -/
def RBuffer.readI32 (r : RBuffer) : Int × RBuffer :=
  match r.err with
  | some _ => (0, r)
  | none =>
    if 0 ≤ r.c ∧ r.c + 4 ≤ (r.data.length : Int) then
      let i := r.c.toNat
      let v := ((r.data.getD i 0 * 256 + r.data.getD (i + 1) 0) * 256
                  + r.data.getD (i + 2) 0) * 256 + r.data.getD (i + 3) 0
      (u32ToI32 v, { r with c := r.c + 4 })
    else
      (0, { r with err := some .shortBuffer })

/-- Read a big-endian unsigned 32-bit value (`RBuffer.ReadU32`); sticky
error, zero value on failure. -/
def RBuffer.readU32 (r : RBuffer) : Nat × RBuffer :=
  match r.err with
  | some _ => (0, r)
  | none =>
    if 0 ≤ r.c ∧ r.c + 4 ≤ (r.data.length : Int) then
      let i := r.c.toNat
      let v := ((r.data.getD i 0 * 256 + r.data.getD (i + 1) 0) * 256
                  + r.data.getD (i + 2) 0) * 256 + r.data.getD (i + 3) 0
      (v, { r with c := r.c + 4 })
    else
      (0, { r with err := some .shortBuffer })

/-- Read `n` consecutive big-endian signed 32-bit values
(`RBuffer.ReadArrayI32` into a slice of length `n`). -/
def RBuffer.readArrayI32 (r : RBuffer) : Nat → List Int × RBuffer
  | 0 => ([], r)
  | n + 1 =>
    let p := r.readI32
    let q := p.2.readArrayI32 n
    (p.1 :: q.1, q.2)

/-- Read `n` raw bytes (string or array payload reads). -/
def RBuffer.readBytes (r : RBuffer) : Nat → List Nat × RBuffer
  | 0 => ([], r)
  | n + 1 =>
    let p := r.readU8
    let q := p.2.readBytes n
    (p.1 :: q.1, q.2)

/-- Key record of a basket (`riofs.Key`), restricted to the fields the
basket engine touches: key-header length (`KeyLen`), uncompressed object
length (`ObjLen`), and — modelled from the spec (§4.2/§4.3, the `riofs`
key loader is not part of the excerpted sources) — the decompressed
payload the key's compressed block expands to (`blob`). -/
structure BKey where
  keylen : Int
  objlen : Nat
  blob : List Nat
deriving DecidableEq, Repr

/-- Reader-side basket (`rtree.Basket`): its key, the declared `last`
pointer, the per-entry event size (`fNevBufSize`), the offsets table and
the read buffer. -/
structure Bkt where
  key : BKey
  last : Int
  nevsize : Int
  offsets : List Int
  rbuf : RBuffer
deriving DecidableEq, Repr

/-- Entry span of a basket (`rtree.rspan`): seek position, buffer size,
entry range and an optional recovered basket. -/
structure RSpan where
  pos : Int
  sz : Int
  start : Int
  stop : Int
  bkt : Option Bkt
deriving DecidableEq, Repr

/-- Reader-side basket state (`rtree.rbasket`). -/
structure RBkt where
  id : Int
  span : RSpan
  bk : Bkt
  buf : List Nat
deriving DecidableEq, Repr

/-- `rbytes.ResizeU8`: resize a scratch buffer to `n` bytes. -/
def resizeU8 (buf : List Nat) (n : Nat) : List Nat :=
  buf.take n ++ List.replicate (n - buf.length) 0

/-- `os.File.ReadAt` through `riofs.File`: read `n` bytes at offset
`seek`; reads past end-of-file fail. -/
def fileReadAt (f : List Nat) (n : Nat) (seek : Int) : Option (List Nat) :=
  if 0 ≤ seek ∧ seek.toNat + n ≤ f.length then
    some ((f.drop seek.toNat).take n)
  else none

/-- Modelled from the spec: `riofs.Key.Load` — not part of the excerpted
sources — reads the key's compressed block and decompresses it into the
caller's buffer; per §4.2 a block that does not decompress to exactly
its declared uncompressed length fails with a corruption error, and per
§4.5 a basket whose post-inflation size disagrees with its declared
uncompressed size fails `CorruptBasket`. -/
def keyLoad (k : BKey) : Except HepError (List Nat) :=
  if k.blob.length = k.objlen then .ok k.blob else .error .corruptBasket

/-- Modelled from the spec: `rtree.Basket.UnmarshalROOT` — not part of
the excerpted sources — decodes the basket record header from the raw
byte buffer (key-header length, uncompressed object length, the `last`
pointer and the per-entry size, as big-endian 32-bit fields), the
remaining bytes being the key's compressed payload; a short buffer
fails. -/
def unmarshalBkt (old : Bkt) (r0 : RBuffer) : Except HepError (Bkt × RBuffer) :=
  let p1 := r0.readI32
  let p2 := p1.2.readI32
  let p3 := p2.2.readI32
  let p4 := p3.2.readI32
  match p4.2.err with
  | some e => .error e
  | none =>
      .ok ({ old with
               key := { keylen := p1.1, objlen := p2.1.toNat,
                        blob := p4.2.data.drop p4.2.c.toNat },
               last := p3.1, nevsize := p4.1, rbuf := p4.2 }, p4.2)

/-- `rtree.rbasket.inflate`: load and decode the basket `id` spanning
`span`; `eoff > 0` marks a branch with variable-length leaves, whose
buffer tail is reinterpreted as the offsets table. -/
def inflate (rbk0 : RBkt) (id : Int) (span : RSpan) (eoff : Int) (f : List Nat) :
    RBkt × Option HepError :=
  let bufsz := span.sz
  let seek := span.pos
  let a0 := { rbk0 with id := id, span := span }
  let a :=
    match span.bkt with
    | some b => { a0 with bk := b }
    | none => a0
  if bufsz = 0 then
    let buf := resizeU8 a.buf a.bk.key.objlen
    match keyLoad a.bk.key with
    | .error e => ({ a with buf := buf }, some e)
    | .ok bytes =>
        ({ a with buf := bytes, bk := { a.bk with rbuf := RBuffer.reset bytes 0 } }, none)
  else
    let buf := resizeU8 a.buf bufsz.toNat
    match fileReadAt f buf.length seek with
    | none => ({ a with buf := buf }, some .ioError)
    | some bytes =>
        let a1 := { a with buf := bytes, bk := { a.bk with rbuf := RBuffer.reset bytes 0 } }
        match unmarshalBkt a1.bk a1.bk.rbuf with
        | .error e => (a1, some e)
        | .ok (bk2, _) =>
            let a2 := { a1 with bk := bk2 }
            let buf2 := resizeU8 a2.buf bk2.key.objlen
            match keyLoad bk2.key with
            | .error e => ({ a2 with buf := buf2 }, some e)
            | .ok payload =>
                let keylen := bk2.key.keylen
                let bk3 := { a2.bk with rbuf := RBuffer.reset payload keylen }
                let a3 := { a2 with buf := payload, bk := bk3 }
                if eoff > 0 then
                  let r0 := a3.bk.rbuf.setPos a3.bk.last
                  let pn := r0.readI32
                  let po := pn.2.readArrayI32 pn.1.toNat
                  let a4 := { a3 with bk := { a3.bk with offsets := po.1, rbuf := po.2 } }
                  match po.2.err with
                  | some e => (a4, some e)
                  | none => (a4, none)
                else
                  (a3, none)

/-- Seek the basket's cursor to position `p` and delegate to the leaf's
typed decode: the spec-side description of what `loadRLeaf` does once
the per-entry offset is known. -/
def seekAndDecode {α : Type} (rbk : RBkt) (p : Int) (dec : RBuffer → α × RBuffer) : α × RBkt :=
  let rb := rbk.bk.rbuf.setPos p
  let q := dec rb
  (q.1, { rbk with bk := { rbk.bk with rbuf := q.2 } })

/-- `rtree.rbasket.loadRLeaf`: position the basket's cursor at the
per-entry offset of the leaf and delegate to the leaf's typed decode
(`leaf.readFromBuffer`), modelled as the function `dec`. -/
def loadRLeaf {α : Type} (rbk : RBkt) (entry : Int) (leafOff : Int)
    (dec : RBuffer → α × RBuffer) : α × RBkt :=
  let offset : Int :=
    if rbk.bk.offsets.length = 0 then
      entry * rbk.bk.nevsize + leafOff + rbk.bk.key.keylen
    else
      rbk.bk.offsets.getD entry.toNat 0 + leafOff
  let rb := rbk.bk.rbuf.setPos offset
  let q := dec rb
  (q.1, { rbk with bk := { rbk.bk with rbuf := q.2 } })

/-- Modelled from the spec: the basket writer for variable-length leaves
— the write path is not part of the excerpted sources — records one
entry-start offset per entry plus a final end offset: the first entry
starts right after the key header (`keylen`) and each later offset is
the previous one plus the byte size of the entry before it (§3, §4.5). -/
def basketOffsets (keylen : Int) : List Int → List Int
  | [] => [keylen]
  | s :: rest => keylen :: basketOffsets (keylen + s) rest

/-- Field kinds of a streamer-info descriptor (spec §4.4), restricted to
the kinds the claims exercise. -/
inductive FieldKind where
  | i32Kind
  | strKind
deriving DecidableEq, Repr

/-- A field value of a streamed object. -/
inductive FieldVal where
  | i32Val (x : Int)
  | strVal (s : List Nat)
deriving DecidableEq, Repr

/-- Ordered field-descriptor list of a registered class (spec §4.4). -/
abbrev ClassDesc := List FieldKind

/-- A streamed object: its field values in declared order. -/
abbrev ObjVal := List FieldVal

/-- Does the value fit its declared kind and the wire width? -/
def fieldOK : FieldKind → FieldVal → Bool
  | .i32Kind, .i32Val x => decide (i32Range x)
  | .strKind, .strVal s => decide (s.length < 4294967296)
  | _, _ => false

/-- Does the object match the descriptor, field by field? -/
def objOK : ClassDesc → ObjVal → Bool
  | [], [] => true
  | k :: ks, v :: vs => fieldOK k v && objOK ks vs
  | _, _ => false

/-- Modelled from the spec: generic per-field `Marshal` of the streamer
registry (§4.4, §4.1: 4-byte big-endian integers, length-prefixed
strings). -/
def marshalField : FieldVal → List Nat
  | .i32Val x => encodeI32 x
  | .strVal s => encodeU32 s.length ++ s

/-- Modelled from the spec: generic `Marshal` — fields emitted strictly
in declared order (§4.4). -/
def marshalObj : ObjVal → List Nat
  | [] => []
  | v :: vs => marshalField v ++ marshalObj vs

/-- Modelled from the spec: generic per-field `Unmarshal` of the
streamer registry (§4.4). -/
def unmarshalField (k : FieldKind) (r : RBuffer) : FieldVal × RBuffer :=
  match k with
  | .i32Kind =>
      let p := r.readI32
      (.i32Val p.1, p.2)
  | .strKind =>
      let p := r.readU32
      let q := p.2.readBytes p.1
      (.strVal q.1, q.2)

/-- Modelled from the spec: generic `Unmarshal` — fields read strictly
in declared order (§4.4). -/
def unmarshalObj (desc : ClassDesc) (r : RBuffer) : ObjVal × RBuffer :=
  match desc with
  | [] => ([], r)
  | k :: ks =>
      let p := unmarshalField k r
      let q := unmarshalObj ks p.2
      (p.1 :: q.1, q.2)

/-- Directory entry (`riofs.Key`, spec §3/§4.3): name, cycle and the
marshalled payload.  The class name and timestamps play no role in the
claims and are omitted. -/
structure RKey where
  name : List Nat
  cycle : Nat
  payload : List Nat
deriving DecidableEq, Repr

/-- Modelled from the spec: the directory/file layer (`riofs.File`, not
part of the excerpted sources) — it owns the ordered key index (§4.3). -/
structure RFile where
  keys : List RKey
deriving DecidableEq, Repr

/-- Modelled from the spec: `riofs.Create` yields a file with an empty
key index. -/
def fCreate : RFile := ⟨[]⟩

/-- Highest existing cycle for `n` in the key index (0 when absent). -/
def maxCycle : List RKey → List Nat → Nat
  | [], _ => 0
  | k :: ks, n =>
      if k.name = n then max k.cycle (maxCycle ks n) else maxCycle ks n

/-- Modelled from the spec: `File.Put` — appends a key at the end of the
index with `cycle = 1 + max(existing cycles for name)` (§4.3). -/
def fPut (fl : RFile) (n : List Nat) (payload : List Nat) : RFile :=
  ⟨fl.keys ++ [⟨n, 1 + maxCycle fl.keys n, payload⟩]⟩

/-- `File.Put` of a value of a registered class: the payload is the
marshalled object. -/
def fPutObj (fl : RFile) (n : List Nat) (v : ObjVal) : RFile :=
  fPut fl n (marshalObj v)

/-- Fold `Put` over a list of `(name, value)` pairs. -/
def fPutAll (fl : RFile) : List (List Nat × ObjVal) → RFile
  | [] => fl
  | p :: ps => fPutAll (fPutObj fl p.1 p.2) ps

/-- The key with name `n` of highest cycle, if any. -/
def bestKey : List RKey → List Nat → Option RKey
  | [], _ => none
  | k :: ks, n =>
      match bestKey ks n with
      | none => if k.name = n then some k else none
      | some k2 =>
          if k.name = n then (if k2.cycle ≤ k.cycle then some k else some k2) else some k2

/-- Modelled from the spec: unspecified-cycle `File.Get` resolves the
highest cycle for the name, failing `NotFound` when absent (§4.3). -/
def fGet (fl : RFile) (n : List Nat) : Except HepError (List Nat) :=
  match bestKey fl.keys n with
  | none => .error .notFound
  | some k => .ok k.payload

/-- Modelled from the spec: `File.Get(name, cycle)` resolves the exact
`(name, cycle)` pair (§3: that pair is a key's true identity). -/
def fGetCycle (fl : RFile) (n : List Nat) (c : Nat) : Except HepError (List Nat) :=
  match fl.keys.find? (fun k => k.name = n && k.cycle = c) with
  | none => .error .notFound
  | some k => .ok k.payload

/-- `File.Get` followed by the registry's `Unmarshal`. -/
def fGetObj (fl : RFile) (desc : ClassDesc) (n : List Nat) : Except HepError ObjVal :=
  match fGet fl n with
  | .error e => .error e
  | .ok pl => .ok (unmarshalObj desc (RBuffer.reset pl 0)).1

/-- `File.Get(name, cycle)` followed by the registry's `Unmarshal`. -/
def fGetCycleObj (fl : RFile) (desc : ClassDesc) (n : List Nat) (c : Nat) :
    Except HepError ObjVal :=
  match fGetCycle fl n c with
  | .error e => .error e
  | .ok pl => .ok (unmarshalObj desc (RBuffer.reset pl 0)).1

/-- `File.Keys`: the `(name, cycle)` index entries, in order. -/
def fKeys (fl : RFile) : List (List Nat × Nat) :=
  fl.keys.map (fun k => (k.name, k.cycle))

/-- Wire image of one key index entry: length-prefixed name, cycle,
length-prefixed payload (spec §6: key headers with name, cycle and
lengths, all multi-byte integers big-endian). -/
def encodeKey (k : RKey) : List Nat :=
  encodeU32 k.name.length ++ k.name ++ encodeU32 k.cycle
    ++ encodeU32 k.payload.length ++ k.payload

/-- Wire image of the key index entries, in order. -/
def encodeKeys : List RKey → List Nat
  | [] => []
  | k :: ks => encodeKey k ++ encodeKeys ks

/-- Modelled from the spec: `File.Close` in write mode finalizes the key
index on disk (§3/§4.3/§6) — a count followed by the key records. -/
def fClose (fl : RFile) : List Nat :=
  encodeU32 fl.keys.length ++ encodeKeys fl.keys

/-- Decode one key index entry. -/
def decodeKey (r : RBuffer) : RKey × RBuffer :=
  let p1 := r.readU32
  let p2 := p1.2.readBytes p1.1
  let p3 := p2.2.readU32
  let p4 := p3.2.readU32
  let p5 := p4.2.readBytes p4.1
  (⟨p2.1, p3.1, p5.1⟩, p5.2)

/-- Decode `n` key index entries. -/
def decodeKeys (r : RBuffer) : Nat → List RKey × RBuffer
  | 0 => ([], r)
  | n + 1 =>
      let p := decodeKey r
      let q := decodeKeys p.2 n
      (p.1 :: q.1, q.2)

/-- Modelled from the spec: `riofs.Open` parses the key index back from
the stored bytes (§2: open → parse header and key index). -/
def fOpen (bytes : List Nat) : Except HepError RFile :=
  let r := RBuffer.reset bytes 0
  let pn := r.readU32
  let pk := decodeKeys pn.2 pn.1
  match pk.2.err with
  | some e => .error e
  | none => .ok ⟨pk.1⟩

/-- Wellformedness of a key for the wire image: lengths and cycle fit in
32 bits. -/
def keyWF (k : RKey) : Prop :=
  k.name.length < 4294967296 ∧ k.cycle < 4294967296 ∧ k.payload.length < 4294967296

instance (k : RKey) : Decidable (keyWF k) := by
  unfold keyWF; infer_instance

/-- Arrow table state (`rarrow.rootTable`): the reference count, how
often each column's `Release` has run, and whether the column slice is
still present (`cols != nil`). -/
structure RootTable where
  refs : Int
  colReleases : List Nat
  colsPresent : Bool
deriving DecidableEq, Repr

/-- `rarrow.NewTable`: reference count 1, one column per branch, none
released yet. -/
def newTable (ncols : Nat) : RootTable :=
  ⟨1, List.replicate ncols 0, true⟩

/-- `rootTable.Retain`: increase the reference count by 1. -/
def tblRetain (t : RootTable) : RootTable := { t with refs := t.refs + 1 }

/-- `rootTable.Release`: decrease the reference count by 1; `none`
models the panic on a count that is already zero or negative; when the
count reaches zero every column is released and the slice is cleared. -/
def tblRelease (t : RootTable) : Option RootTable :=
  if t.refs ≤ 0 then none
  else
    let refs := t.refs - 1
    if refs = 0 then
      some { refs := refs,
             colReleases :=
               if t.colsPresent then t.colReleases.map (· + 1) else t.colReleases,
             colsPresent := false }
    else
      some { t with refs := refs }

/-- One retain/release call on the table. -/
inductive TblOp where
  | retain
  | release
deriving DecidableEq, Repr

/-- Run a sequence of retain/release calls; `none` models a panic. -/
def runTbl (t : RootTable) : List TblOp → Option RootTable
  | [] => some t
  | .retain :: ops => runTbl (tblRetain t) ops
  | .release :: ops =>
      match tblRelease t with
      | none => none
      | some t2 => runTbl t2 ops

/-- Errors of the histogram booking service. -/
inductive SvcError where
  | bookError
  | noStream
  | invalidMode
  | readError
deriving DecidableEq, Repr

/-- Modelled from the spec: the lifecycle state machine of the pipeline
framework (`fwk/fsm`, an external collaborator, not part of the
excerpted sources): states are ordered integers with
`Undefined < Configuring < Configured < Starting < Started < Running <
Stopping < Stopped`. -/
def fsmConfigured : Int := 2

/-- `fsm.Running` in the integer ordering of the lifecycle states. -/
def fsmRunning : Int := 5

/-- Stream declaration mode of the booking service. -/
inductive StreamMode where
  | readMode
  | writeMode
  | badMode
deriving DecidableEq, Repr

/-- Modelled from the spec: an input stream of the booking service
(`hbooksvc.istream`, not part of the excerpted sources): the objects
attached so far and the names available in the underlying file. -/
structure IStream where
  objs : List String
  avail : List String
deriving DecidableEq, Repr

/-- Modelled from the spec: an output stream of the booking service
(`hbooksvc.ostream`, not part of the excerpted sources). -/
structure OStream where
  objs : List String
deriving DecidableEq, Repr

/-- A booked histogram object: its identifier and full name. -/
structure HistObj where
  hid : String
  fullname : String
deriving DecidableEq, Repr

/-- Association list lookup (Go map read). -/
def lookupA {β : Type} : List (String × β) → String → Option β
  | [], _ => none
  | p :: ps, k => if p.1 = k then some p.2 else lookupA ps k

/-- Association list insert/overwrite (Go map assignment). -/
def insertA {β : Type} : List (String × β) → String → β → List (String × β)
  | [], k, v => [(k, v)]
  | p :: ps, k, v => if p.1 = k then (k, v) :: ps else p :: insertA ps k v

/-- The histogram booking service state (`hbooksvc.hsvc`): lifecycle
state, the four histogram maps, declared streams and open read/write
streams. -/
structure HSvc where
  state : Int
  h1ds : List (String × HistObj)
  h2ds : List (String × HistObj)
  p1ds : List (String × HistObj)
  s2ds : List (String × HistObj)
  streams : List (String × StreamMode)
  rstreams : List (String × IStream)
  wstreams : List (String × OStream)
deriving DecidableEq, Repr

/-- `hsvc.fullname`: the annotated full name of a booked histogram. -/
def hFullname (stream hid : String) : String :=
  if stream = "" then hid else stream ++ "/" ++ hid

/-- `hsvc.split`: split a booking name into `(stream, histo)` — one
leading and one trailing slash trimmed, first segment is the stream. -/
def splitName (n : String) : String × String :=
  let n1 := if n.startsWith "/" then n.drop 1 else n
  let n2 := if n1.endsWith "/" then n1.dropRight 1 else n1
  let o := n2.splitOn "/"
  match o with
  | [] => ("", "")
  | [a] => ("", a)
  | [a, b] => (a, b)
  | a :: rest => (a, String.intercalate "/" rest)

/-- Common body of the four booking operations: the lifecycle gate, the
name split and the stream bookkeeping; on success it returns the histo
object, its identifier and the service with updated streams — the
caller then registers the object in its own map, as each `Book…` does
in its last lines. -/
def bookCore (svc : HSvc) (name : String) : Except SvcError (HistObj × HSvc) :=
  if ¬(fsmConfigured < svc.state ∧ svc.state < fsmRunning) then
    .error .bookError
  else
    let p := splitName name
    let stream := p.1
    let hid := p.2
    let h : HistObj := ⟨hid, hFullname stream hid⟩
    if stream = "" then
      .ok (h, svc)
    else
      let sname := "/" ++ stream
      match lookupA svc.streams sname with
      | none => .error .noStream
      | some .readMode =>
          match lookupA svc.rstreams sname with
          | none => .error .noStream
          | some r =>
              if hid ∈ r.avail then
                .ok (h, { svc with
                            rstreams := insertA svc.rstreams sname
                              { r with objs := r.objs ++ [hid] } })
              else .error .readError
      | some .writeMode =>
          match lookupA svc.wstreams sname with
          | none => .error .noStream
          | some w =>
              .ok (h, { svc with
                          wstreams := insertA svc.wstreams sname
                            { w with objs := w.objs ++ [hid] } })
      | some .badMode => .error .invalidMode

/-- `hsvc.BookH1D`: lifecycle gate, stream bookkeeping, then register
the histogram in the `h1ds` map. -/
def bookH1D (svc : HSvc) (name : String) : HSvc × Except SvcError HistObj :=
  match bookCore svc name with
  | .error e => (svc, .error e)
  | .ok (h, svc2) => ({ svc2 with h1ds := insertA svc2.h1ds h.hid h }, .ok h)

/-- `hsvc.BookH2D`: lifecycle gate, stream bookkeeping, then register
the histogram in the `h2ds` map. -/
def bookH2D (svc : HSvc) (name : String) : HSvc × Except SvcError HistObj :=
  match bookCore svc name with
  | .error e => (svc, .error e)
  | .ok (h, svc2) => ({ svc2 with h2ds := insertA svc2.h2ds h.hid h }, .ok h)

/-- `hsvc.BookP1D`: lifecycle gate, stream bookkeeping, then register
the profile in the `p1ds` map. -/
def bookP1D (svc : HSvc) (name : String) : HSvc × Except SvcError HistObj :=
  match bookCore svc name with
  | .error e => (svc, .error e)
  | .ok (h, svc2) => ({ svc2 with p1ds := insertA svc2.p1ds h.hid h }, .ok h)

/-- `hsvc.BookS2D`: lifecycle gate, stream bookkeeping, then register
the scatter in the `s2ds` map. -/
def bookS2D (svc : HSvc) (name : String) : HSvc × Except SvcError HistObj :=
  match bookCore svc name with
  | .error e => (svc, .error e)
  | .ok (h, svc2) => ({ svc2 with s2ds := insertA svc2.s2ds h.hid h }, .ok h)

/-- Wire image of a basket record: the four header fields read by
`Basket.UnmarshalROOT` followed by the payload. -/
def basketRaw (keylen objlen last nevsize : Int) (blob : List Nat) : List Nat :=
  encodeI32 keylen ++ encodeI32 objlen ++ encodeI32 last ++ encodeI32 nevsize ++ blob

/-- The span of a basket record stored at offset 0 of the file. -/
def basketSpan (raw : List Nat) (st sp : Int) : RSpan :=
  ⟨0, (raw.length : Int), st, sp, none⟩

/-- A concrete basket used to evaluate the theorems on closed inputs. -/
def exBkt : Bkt :=
  { key := { keylen := 3, objlen := 6, blob := [10, 20, 30, 40, 50, 60] },
    last := 0, nevsize := 2, offsets := [3, 5, 8],
    rbuf := { data := [10, 20, 30, 40, 50, 60], c := 0, off := 3, err := none } }

/-- A concrete reader-side basket state for closed evaluation. -/
def exRBkt : RBkt :=
  { id := 0, span := { pos := 0, sz := 6, start := 0, stop := 3, bkt := none },
    bk := exBkt, buf := [10, 20, 30, 40, 50, 60] }

/-- A span whose file read fails (it points past the end of an empty
file). -/
def exSpanFail : RSpan := { pos := 100, sz := 4, start := 0, stop := 0, bkt := none }

/-- A recovered basket whose decompressed payload disagrees with its
declared uncompressed length. -/
def exBadBkt : Bkt :=
  { key := { keylen := 0, objlen := 5, blob := [1, 2] }, last := 0, nevsize := 1,
    offsets := [], rbuf := RBuffer.reset [] 0 }

/-- A zero-size span carrying the corrupt recovered basket. -/
def exSpanRecovered : RSpan := { pos := 0, sz := 0, start := 0, stop := 0, bkt := some exBadBkt }

/-- Does any key in the index carry this name? -/
def hasName (ks : List RKey) (n : List Nat) : Bool :=
  ks.any (fun k => decide (k.name = n))

/-- The key a first `Put` of `(name, value)` creates: cycle 1 and the
marshalled payload. -/
def mkKey (p : List Nat × ObjVal) : RKey :=
  ⟨p.1, 1, marshalObj p.2⟩

/-- A concrete registered class: one 32-bit integer field. -/
def exDesc : ClassDesc := [.i32Kind]

/-- Two concrete `(name, value)` puts with distinct names. -/
def exPs : List (List Nat × ObjVal) := [([0], [.i32Val 7]), ([1], [.i32Val 9])]

/-- A cursor already in the sticky-error state. -/
def exErrBuf : RBuffer := ⟨[1, 2, 3], 0, 0, some .shortBuffer⟩

/-- A concrete two-column table with one outstanding reference. -/
def exTbl : RootTable := ⟨1, [0, 0], true⟩

/-- The table after its last reference is released. -/
def exTblEnd : RootTable := ⟨0, [1, 1], false⟩

/-- A concrete booking service in the `Running` state. -/
def exSvc : HSvc :=
  { state := 5, h1ds := [], h2ds := [], p1ds := [], s2ds := [],
    streams := [], rstreams := [], wstreams := [] }

/- ===== Theorems ===== -/

theorem encodeU32_length (n : Nat) : (encodeU32 n).length = 4 := rfl

theorem encodeI32_length (x : Int) : (encodeI32 x).length = 4 := rfl

theorem u32ToI32_i32ToU32 (x : Int) (h : i32Range x) : u32ToI32 (i32ToU32 x) = x := by
  rcases h with ⟨h1, h2⟩
  unfold u32ToI32 i32ToU32
  split <;> omega

theorem i32ToU32_lt (x : Int) : i32ToU32 x < 4294967296 := by
  unfold i32ToU32; omega

/-- Recomposing the four big-endian digits of a value below `2 ^ 32`
gives the value back. -/
theorem u32_digits (n : Nat) (h : n < 4294967296) :
    ((n / 16777216 % 256 * 256 + n / 65536 % 256) * 256 + n / 256 % 256) * 256 + n % 256 = n := by
  have h1 := Nat.div_add_mod n 256
  have h2 := Nat.div_add_mod (n / 256) 256
  have h3 := Nat.div_add_mod (n / 65536) 256
  have e1 : n / 256 / 256 = n / 65536 := by
    rw [Nat.div_div_eq_div_mul]
  have e2 : n / 65536 / 256 = n / 16777216 := by
    rw [Nat.div_div_eq_div_mul]
  have h4 : n / 16777216 < 256 := by
    apply Nat.div_lt_of_lt_mul; omega
  have h5 : n / 16777216 % 256 = n / 16777216 := Nat.mod_eq_of_lt h4
  omega

theorem setPos_pos (r : RBuffer) (p : Int) : (r.setPos p).pos = p := by
  simp [RBuffer.setPos, RBuffer.pos]

theorem readU8_sticky (r : RBuffer) (e : HepError) (h : r.err = some e) :
    r.readU8 = (0, r) := by
  unfold RBuffer.readU8; rw [h]

theorem readI32_sticky (r : RBuffer) (e : HepError) (h : r.err = some e) :
    r.readI32 = (0, r) := by
  unfold RBuffer.readI32; rw [h]

theorem readU32_sticky (r : RBuffer) (e : HepError) (h : r.err = some e) :
    r.readU32 = (0, r) := by
  unfold RBuffer.readU32; rw [h]

theorem readArrayI32_sticky (r : RBuffer) (e : HepError) (h : r.err = some e) :
    ∀ n, r.readArrayI32 n = (List.replicate n 0, r) := by
  intro n
  induction n with
  | zero => simp [RBuffer.readArrayI32]
  | succ k ih =>
      simp [RBuffer.readArrayI32, readI32_sticky r e h, ih, List.replicate_succ]

theorem readBytes_sticky (r : RBuffer) (e : HepError) (h : r.err = some e) :
    ∀ n, r.readBytes n = (List.replicate n 0, r) := by
  intro n
  induction n with
  | zero => simp [RBuffer.readBytes]
  | succ k ih =>
      simp [RBuffer.readBytes, readU8_sticky r e h, ih, List.replicate_succ]

theorem readI32_err_of_none (r : RBuffer) (h : r.readI32.2.err = none) : r.err = none := by
  cases he : r.err with
  | none => rfl
  | some e =>
      rw [readI32_sticky r e he] at h
      rw [he] at h
      exact Option.noConfusion h

theorem readArrayI32_err_of_none (r : RBuffer) (n : Nat)
    (h : (r.readArrayI32 n).2.err = none) : r.err = none := by
  induction n generalizing r with
  | zero => exact h
  | succ k ih =>
      unfold RBuffer.readArrayI32 at h
      exact readI32_err_of_none r (ih r.readI32.2 h)

theorem resizeU8_length (buf : List Nat) (n : Nat) : (resizeU8 buf n).length = n := by
  simp [resizeU8]
  omega

theorem encodeI32s_length (xs : List Int) : (encodeI32s xs).length = 4 * xs.length := by
  induction xs with
  | nil => rfl
  | cons x xs ih => simp [encodeI32s, ih, encodeI32_length]; omega

theorem getD_concat (pre mid rest : List Nat) (j : Nat) (hj : j < mid.length) :
    (pre ++ mid ++ rest).getD (pre.length + j) 0 = mid.getD j 0 := by
  rw [List.append_assoc]
  rw [List.getD_append_right pre (mid ++ rest) 0 (pre.length + j) (by omega)]
  have hj' : pre.length + j - pre.length = j := by omega
  rw [hj']
  exact List.getD_append mid rest 0 j hj

/-- Reading a 32-bit value at a position where the buffer holds the
big-endian encoding of `m` yields `m` (as a signed value) and advances
the position by four. -/
theorem readI32_at (pre rest : List Nat) (off : Int) (m : Nat) (hm : m < 4294967296) :
    RBuffer.readI32 ⟨pre ++ encodeU32 m ++ rest, (pre.length : Int), off, none⟩ =
      (u32ToI32 m, ⟨pre ++ encodeU32 m ++ rest, (pre.length : Int) + 4, off, none⟩) := by
  unfold RBuffer.readI32
  have hlen : (pre ++ encodeU32 m ++ rest).length = pre.length + 4 + rest.length := by
    simp [encodeU32_length]; omega
  have hcond : (0 : Int) ≤ (pre.length : Int) ∧
      (pre.length : Int) + 4 ≤ ((pre ++ encodeU32 m ++ rest).length : Int) := by
    constructor
    · exact Int.natCast_nonneg _
    · rw [hlen]; push_cast; omega
  simp only [hcond, if_pos, Int.toNat_natCast]
  have g0 : (pre ++ encodeU32 m ++ rest).getD pre.length 0 = m / 16777216 % 256 := by
    have := getD_concat pre (encodeU32 m) rest 0 (by simp [encodeU32_length])
    simpa [encodeU32] using this
  have g1 : (pre ++ encodeU32 m ++ rest).getD (pre.length + 1) 0 = m / 65536 % 256 :=
    getD_concat pre (encodeU32 m) rest 1 (by simp [encodeU32_length])
  have g2 : (pre ++ encodeU32 m ++ rest).getD (pre.length + 2) 0 = m / 256 % 256 :=
    getD_concat pre (encodeU32 m) rest 2 (by simp [encodeU32_length])
  have g3 : (pre ++ encodeU32 m ++ rest).getD (pre.length + 3) 0 = m % 256 :=
    getD_concat pre (encodeU32 m) rest 3 (by simp [encodeU32_length])
  rw [g0, g1, g2, g3, u32_digits m hm]
  simp

/-- Reading `n` 32-bit values over the concatenated encodings of `xs`
yields `xs` back and advances the position by `4 * n`. -/
theorem readArrayI32_at (pre rest : List Nat) (off : Int) (xs : List Int)
    (hxs : ∀ x ∈ xs, i32Range x) :
    RBuffer.readArrayI32 ⟨pre ++ encodeI32s xs ++ rest, (pre.length : Int), off, none⟩ xs.length =
      (xs, ⟨pre ++ encodeI32s xs ++ rest, (pre.length : Int) + 4 * xs.length, off, none⟩) := by
  induction xs generalizing pre with
  | nil => simp [RBuffer.readArrayI32, encodeI32s]
  | cons x xs ih =>
      have hassoc : pre ++ encodeI32s (x :: xs) ++ rest
          = (pre ++ encodeI32 x) ++ encodeI32s xs ++ rest := by
        simp [encodeI32s]
      have hx : i32Range x := hxs x (by simp)
      have hread : RBuffer.readI32
          ⟨pre ++ encodeI32s (x :: xs) ++ rest, (pre.length : Int), off, none⟩ =
          (x, ⟨pre ++ encodeI32s (x :: xs) ++ rest, (pre.length : Int) + 4, off, none⟩) := by
        have h1 : pre ++ encodeI32s (x :: xs) ++ rest
            = pre ++ encodeU32 (i32ToU32 x) ++ (encodeI32s xs ++ rest) := by
          simp [encodeI32s, encodeI32]
        rw [h1]
        rw [readI32_at pre (encodeI32s xs ++ rest) off (i32ToU32 x) (i32ToU32_lt x)]
        rw [u32ToI32_i32ToU32 x hx]
      have hlen : ((pre ++ encodeI32 x).length : Int) = (pre.length : Int) + 4 := by
        simp [encodeI32_length]
      have htail := ih (pre ++ encodeI32 x) (fun y hy => hxs y (by simp [hy]))
      rw [← hassoc] at htail
      rw [hlen] at htail
      show (let p := RBuffer.readI32
              ⟨pre ++ encodeI32s (x :: xs) ++ rest, (pre.length : Int), off, none⟩
            let q := p.2.readArrayI32 xs.length
            (p.1 :: q.1, q.2)) = _
      rw [hread]
      simp only []
      rw [htail]
      dsimp only
      have hc : (pre.length : Int) + 4 + 4 * ((xs.length : Nat) : Int)
          = (pre.length : Int) + 4 * (((x :: xs).length : Nat) : Int) := by
        push_cast [List.length_cons]
        ring
      rw [hc]

/-- Reading one byte at a position where the buffer holds `b` yields `b`
and advances the position by one. -/
theorem readU8_at (pre : List Nat) (b : Nat) (rest : List Nat) (off : Int) :
    RBuffer.readU8 ⟨pre ++ b :: rest, (pre.length : Int), off, none⟩ =
      (b, ⟨pre ++ b :: rest, (pre.length : Int) + 1, off, none⟩) := by
  unfold RBuffer.readU8
  have hlen : (pre ++ b :: rest).length = pre.length + 1 + rest.length := by
    rw [List.length_append, List.length_cons]; omega
  have hcond : (0 : Int) ≤ (pre.length : Int) ∧
      ((pre.length : Int)).toNat < (pre ++ b :: rest).length := by
    refine ⟨Int.natCast_nonneg _, ?_⟩
    rw [Int.toNat_natCast, hlen]; omega
  rw [dif_pos hcond]
  have hget : (pre ++ b :: rest).get ⟨((pre.length : Int)).toNat, hcond.2⟩ = b := by
    have hd : (pre ++ b :: rest).getD ((pre.length : Int)).toNat 0 = b := by
      rw [Int.toNat_natCast]
      have := getD_concat pre [b] rest 0 (by simp)
      simpa using this
    rw [List.get_eq_getElem, ← List.getD_eq_getElem (pre ++ b :: rest) 0 hcond.2]
    exact hd
  rw [hget]

/-- Reading `n` bytes over a segment holding `bs` yields `bs` back. -/
theorem readBytes_at (pre bs rest : List Nat) (off : Int) :
    RBuffer.readBytes ⟨pre ++ bs ++ rest, (pre.length : Int), off, none⟩ bs.length =
      (bs, ⟨pre ++ bs ++ rest, (pre.length : Int) + bs.length, off, none⟩) := by
  induction bs generalizing pre with
  | nil => simp [RBuffer.readBytes]
  | cons b bs ih =>
      have h1 : pre ++ (b :: bs) ++ rest = pre ++ b :: (bs ++ rest) := by simp
      have hread : RBuffer.readU8
          ⟨pre ++ (b :: bs) ++ rest, (pre.length : Int), off, none⟩ =
          (b, ⟨pre ++ (b :: bs) ++ rest, (pre.length : Int) + 1, off, none⟩) := by
        rw [h1]
        exact readU8_at pre b (bs ++ rest) off
      have hassoc : pre ++ (b :: bs) ++ rest = (pre ++ [b]) ++ bs ++ rest := by
        simp
      have hlen : ((pre ++ [b]).length : Int) = (pre.length : Int) + 1 := by
        simp
      have htail := ih (pre ++ [b])
      rw [← hassoc] at htail
      rw [hlen] at htail
      show (let p := RBuffer.readU8
              ⟨pre ++ (b :: bs) ++ rest, (pre.length : Int), off, none⟩
            let q := p.2.readBytes bs.length
            (p.1 :: q.1, q.2)) = _
      rw [hread]
      simp only []
      rw [htail]
      dsimp only
      have hc : (pre.length : Int) + 1 + ((bs.length : Nat) : Int)
          = (pre.length : Int) + (((b :: bs).length : Nat) : Int) := by
        push_cast [List.length_cons]
        ring
      rw [hc]

/-- Reading an unsigned 32-bit value at a position where the buffer
holds the big-endian encoding of `m` yields `m` and advances the
position by four. -/
theorem readU32_at (pre rest : List Nat) (off : Int) (m : Nat) (hm : m < 4294967296) :
    RBuffer.readU32 ⟨pre ++ encodeU32 m ++ rest, (pre.length : Int), off, none⟩ =
      (m, ⟨pre ++ encodeU32 m ++ rest, (pre.length : Int) + 4, off, none⟩) := by
  unfold RBuffer.readU32
  have hlen : (pre ++ encodeU32 m ++ rest).length = pre.length + 4 + rest.length := by
    simp [encodeU32_length]; omega
  have hcond : (0 : Int) ≤ (pre.length : Int) ∧
      (pre.length : Int) + 4 ≤ ((pre ++ encodeU32 m ++ rest).length : Int) := by
    constructor
    · exact Int.natCast_nonneg _
    · rw [hlen]; push_cast; omega
  simp only [hcond, if_pos, Int.toNat_natCast]
  have g0 : (pre ++ encodeU32 m ++ rest).getD pre.length 0 = m / 16777216 % 256 := by
    have := getD_concat pre (encodeU32 m) rest 0 (by simp [encodeU32_length])
    simpa [encodeU32] using this
  have g1 : (pre ++ encodeU32 m ++ rest).getD (pre.length + 1) 0 = m / 65536 % 256 :=
    getD_concat pre (encodeU32 m) rest 1 (by simp [encodeU32_length])
  have g2 : (pre ++ encodeU32 m ++ rest).getD (pre.length + 2) 0 = m / 256 % 256 :=
    getD_concat pre (encodeU32 m) rest 2 (by simp [encodeU32_length])
  have g3 : (pre ++ encodeU32 m ++ rest).getD (pre.length + 3) 0 = m % 256 :=
    getD_concat pre (encodeU32 m) rest 3 (by simp [encodeU32_length])
  rw [g0, g1, g2, g3, u32_digits m hm]
  simp

/-- Chaining form of `readU8_at`: stated through `List.drop` so that
successive reads compose. -/
theorem readU8_drop (d : List Nat) (c off : Int) (b : Nat) (rest : List Nat)
    (hc : 0 ≤ c) (hlen : c.toNat ≤ d.length)
    (hdrop : d.drop c.toNat = b :: rest) :
    RBuffer.readU8 ⟨d, c, off, none⟩ = (b, ⟨d, c + 1, off, none⟩) := by
  set pre := d.take c.toNat with hpre_def
  have hpre : d = pre ++ b :: rest := by
    conv_lhs => rw [← List.take_append_drop c.toNat d]
    rw [hdrop]
  have hplen : (pre.length : Int) = c := by
    rw [hpre_def, List.length_take, Nat.min_eq_left hlen, Int.toNat_of_nonneg hc]
  rw [hpre, ← hplen]
  exact readU8_at pre b rest off

/-- Chaining form of `readI32_at`. -/
theorem readI32_drop (d : List Nat) (c off : Int) (m : Nat) (rest : List Nat)
    (hm : m < 4294967296) (hc : 0 ≤ c) (hlen : c.toNat ≤ d.length)
    (hdrop : d.drop c.toNat = encodeU32 m ++ rest) :
    RBuffer.readI32 ⟨d, c, off, none⟩ = (u32ToI32 m, ⟨d, c + 4, off, none⟩) := by
  set pre := d.take c.toNat with hpre_def
  have hpre : d = pre ++ encodeU32 m ++ rest := by
    conv_lhs => rw [← List.take_append_drop c.toNat d]
    rw [hdrop, List.append_assoc]
  have hplen : (pre.length : Int) = c := by
    rw [hpre_def, List.length_take, Nat.min_eq_left hlen, Int.toNat_of_nonneg hc]
  rw [hpre, ← hplen]
  exact readI32_at pre rest off m hm

/-- Chaining form of `readU32_at`. -/
theorem readU32_drop (d : List Nat) (c off : Int) (m : Nat) (rest : List Nat)
    (hm : m < 4294967296) (hc : 0 ≤ c) (hlen : c.toNat ≤ d.length)
    (hdrop : d.drop c.toNat = encodeU32 m ++ rest) :
    RBuffer.readU32 ⟨d, c, off, none⟩ = (m, ⟨d, c + 4, off, none⟩) := by
  set pre := d.take c.toNat with hpre_def
  have hpre : d = pre ++ encodeU32 m ++ rest := by
    conv_lhs => rw [← List.take_append_drop c.toNat d]
    rw [hdrop, List.append_assoc]
  have hplen : (pre.length : Int) = c := by
    rw [hpre_def, List.length_take, Nat.min_eq_left hlen, Int.toNat_of_nonneg hc]
  rw [hpre, ← hplen]
  exact readU32_at pre rest off m hm

/-- Chaining form of `readArrayI32_at`. -/
theorem readArrayI32_drop (d : List Nat) (c off : Int) (xs : List Int) (rest : List Nat)
    (hxs : ∀ x ∈ xs, i32Range x) (hc : 0 ≤ c) (hlen : c.toNat ≤ d.length)
    (hdrop : d.drop c.toNat = encodeI32s xs ++ rest) :
    RBuffer.readArrayI32 ⟨d, c, off, none⟩ xs.length =
      (xs, ⟨d, c + 4 * xs.length, off, none⟩) := by
  set pre := d.take c.toNat with hpre_def
  have hpre : d = pre ++ encodeI32s xs ++ rest := by
    conv_lhs => rw [← List.take_append_drop c.toNat d]
    rw [hdrop, List.append_assoc]
  have hplen : (pre.length : Int) = c := by
    rw [hpre_def, List.length_take, Nat.min_eq_left hlen, Int.toNat_of_nonneg hc]
  rw [hpre, ← hplen]
  exact readArrayI32_at pre rest off xs hxs

/-- Chaining form of `readBytes_at`. -/
theorem readBytes_drop (d : List Nat) (c off : Int) (bs rest : List Nat)
    (hc : 0 ≤ c) (hlen : c.toNat ≤ d.length)
    (hdrop : d.drop c.toNat = bs ++ rest) :
    RBuffer.readBytes ⟨d, c, off, none⟩ bs.length =
      (bs, ⟨d, c + bs.length, off, none⟩) := by
  set pre := d.take c.toNat with hpre_def
  have hpre : d = pre ++ bs ++ rest := by
    conv_lhs => rw [← List.take_append_drop c.toNat d]
    rw [hdrop, List.append_assoc]
  have hplen : (pre.length : Int) = c := by
    rw [hpre_def, List.length_take, Nat.min_eq_left hlen, Int.toNat_of_nonneg hc]
  rw [hpre, ← hplen]
  exact readBytes_at pre bs rest off

theorem drop4_encodeI32 (x : Int) (Y : List Nat) : (encodeI32 x ++ Y).drop 4 = Y := by
  have := List.drop_left (encodeI32 x) Y
  simpa [encodeI32_length] using this

theorem fileReadAt_self (f : List Nat) : fileReadAt f f.length 0 = some f := by
  simp [fileReadAt]

/-- Decoding the basket record header from its wire image recovers the
four header fields and leaves the payload as the key's blob. -/
theorem unmarshalBkt_at (old : Bkt) (keylen objlen last nevsize : Int) (blob : List Nat)
    (hkl : i32Range keylen) (hol : i32Range objlen) (hla : i32Range last)
    (hnev : i32Range nevsize) :
    unmarshalBkt old (RBuffer.reset (basketRaw keylen objlen last nevsize blob) 0) =
      .ok ({ old with
               key := { keylen := keylen, objlen := objlen.toNat, blob := blob },
               last := last, nevsize := nevsize,
               rbuf := ⟨basketRaw keylen objlen last nevsize blob, 16, 0, none⟩ },
            ⟨basketRaw keylen objlen last nevsize blob, 16, 0, none⟩) := by
  set raw := basketRaw keylen objlen last nevsize blob with hraw
  have hrawlen : raw.length = 16 + blob.length := by
    simp [hraw, basketRaw, encodeI32_length]
    omega
  have hassoc : raw = encodeI32 keylen ++ (encodeI32 objlen ++ (encodeI32 last
      ++ (encodeI32 nevsize ++ blob))) := by
    simp [hraw, basketRaw]
  have d4 : raw.drop 4 = encodeI32 objlen ++ (encodeI32 last ++ (encodeI32 nevsize ++ blob)) := by
    rw [hassoc]; exact drop4_encodeI32 _ _
  have d8 : raw.drop 8 = encodeI32 last ++ (encodeI32 nevsize ++ blob) := by
    rw [show (8 : Nat) = 4 + 4 from rfl, ← List.drop_drop, d4]
    exact drop4_encodeI32 _ _
  have d12 : raw.drop 12 = encodeI32 nevsize ++ blob := by
    rw [show (12 : Nat) = 8 + 4 from rfl, ← List.drop_drop, d8]
    exact drop4_encodeI32 _ _
  have d16 : raw.drop 16 = blob := by
    rw [show (16 : Nat) = 12 + 4 from rfl, ← List.drop_drop, d12]
    exact drop4_encodeI32 _ _
  have h1 : RBuffer.readI32 ⟨raw, 0, 0, none⟩ = (keylen, ⟨raw, 4, 0, none⟩) := by
    have hd : raw.drop ((0 : Int)).toNat = encodeU32 (i32ToU32 keylen)
        ++ (encodeI32 objlen ++ (encodeI32 last ++ (encodeI32 nevsize ++ blob))) := by
      rw [show ((0 : Int)).toNat = 0 from rfl, List.drop_zero]
      rw [hassoc]; rfl
    have := readI32_drop raw 0 0 (i32ToU32 keylen) _ (i32ToU32_lt _) (by norm_num)
      (by omega) hd
    rw [u32ToI32_i32ToU32 keylen hkl] at this
    simpa using this
  have h2 : RBuffer.readI32 ⟨raw, 4, 0, none⟩ = (objlen, ⟨raw, 8, 0, none⟩) := by
    have hd : raw.drop ((4 : Int)).toNat = encodeU32 (i32ToU32 objlen)
        ++ (encodeI32 last ++ (encodeI32 nevsize ++ blob)) := by
      rw [show ((4 : Int)).toNat = 4 from rfl, d4]; rfl
    have := readI32_drop raw 4 0 (i32ToU32 objlen) _ (i32ToU32_lt _) (by norm_num)
      (by omega) hd
    rw [u32ToI32_i32ToU32 objlen hol] at this
    simpa using this
  have h3 : RBuffer.readI32 ⟨raw, 8, 0, none⟩ = (last, ⟨raw, 12, 0, none⟩) := by
    have hd : raw.drop ((8 : Int)).toNat = encodeU32 (i32ToU32 last)
        ++ (encodeI32 nevsize ++ blob) := by
      rw [show ((8 : Int)).toNat = 8 from rfl, d8]; rfl
    have := readI32_drop raw 8 0 (i32ToU32 last) _ (i32ToU32_lt _) (by norm_num)
      (by omega) hd
    rw [u32ToI32_i32ToU32 last hla] at this
    simpa using this
  have h4 : RBuffer.readI32 ⟨raw, 12, 0, none⟩ = (nevsize, ⟨raw, 16, 0, none⟩) := by
    have hd : raw.drop ((12 : Int)).toNat = encodeU32 (i32ToU32 nevsize) ++ blob := by
      rw [show ((12 : Int)).toNat = 12 from rfl, d12]; rfl
    have := readI32_drop raw 12 0 (i32ToU32 nevsize) _ (i32ToU32_lt _) (by norm_num)
      (by omega) hd
    rw [u32ToI32_i32ToU32 nevsize hnev] at this
    simpa using this
  show unmarshalBkt old ⟨raw, 0, 0, none⟩ = _
  unfold unmarshalBkt
  rw [h1]
  dsimp only
  rw [h2]
  dsimp only
  rw [h3]
  dsimp only
  rw [h4]
  dsimp only
  rw [show ((16 : Int)).toNat = 16 from rfl, d16]

/-- Core reduction of `inflate` on a well-formed basket record of a
branch with variable-length leaves: the file read, basket unmarshal and
key load all succeed, the cursor is positioned at the declared `last`
pointer, a 4-byte count is read followed by that many 4-byte offsets,
and those offsets become the basket's offsets table. -/
theorem inflate_offsets_red (rbk : RBkt) (id eoff st sp : Int)
    (keylen objlen last nevsize cnt : Int) (pre rest : List Nat) (offs : List Int)
    (heoff : 0 < eoff)
    (hkl : i32Range keylen) (hol : i32Range objlen) (hla : i32Range last)
    (hnev : i32Range nevsize) (hcnt : i32Range cnt)
    (hoffs : ∀ x ∈ offs, i32Range x)
    (hcval : cnt = (offs.length : Int))
    (hlast : last = keylen + (pre.length : Int))
    (hobj : objlen = ((pre ++ encodeI32 cnt ++ encodeI32s offs ++ rest).length : Int)) :
    inflate rbk id (basketSpan (basketRaw keylen objlen last nevsize
        (pre ++ encodeI32 cnt ++ encodeI32s offs ++ rest)) st sp) eoff
      (basketRaw keylen objlen last nevsize
        (pre ++ encodeI32 cnt ++ encodeI32s offs ++ rest))
    = ({ id := id,
         span := basketSpan (basketRaw keylen objlen last nevsize
           (pre ++ encodeI32 cnt ++ encodeI32s offs ++ rest)) st sp,
         bk := { key := { keylen := keylen, objlen := objlen.toNat,
                          blob := pre ++ encodeI32 cnt ++ encodeI32s offs ++ rest },
                 last := last, nevsize := nevsize, offsets := offs,
                 rbuf := ⟨pre ++ encodeI32 cnt ++ encodeI32s offs ++ rest,
                          last - keylen + 4 + 4 * (offs.length : Int), keylen, none⟩ },
         buf := pre ++ encodeI32 cnt ++ encodeI32s offs ++ rest }, none) := by
  set blob := pre ++ encodeI32 cnt ++ encodeI32s offs ++ rest with hblob
  set raw := basketRaw keylen objlen last nevsize blob with hrawdef
  have hbloblen : blob.length = pre.length + 4 + 4 * offs.length + rest.length := by
    simp [hblob, encodeI32_length, encodeI32s_length]
    omega
  have hrawlen : raw.length = 16 + blob.length := by
    simp [hrawdef, basketRaw, encodeI32_length]
    omega
  have hsz : ¬ ((raw.length : Int) = 0) := by
    rw [Int.natCast_eq_zero]
    omega
  have hfr : fileReadAt raw (resizeU8 rbk.buf ((raw.length : Int)).toNat).length 0
      = some raw := by
    rw [resizeU8_length, Int.toNat_natCast]
    exact fileReadAt_self raw
  have hunm := unmarshalBkt_at { rbk.bk with rbuf := RBuffer.reset raw 0 }
    keylen objlen last nevsize blob hkl hol hla hnev
  rw [← hrawdef] at hunm
  have hkload : keyLoad { keylen := keylen, objlen := objlen.toNat, blob := blob } = .ok blob := by
    unfold keyLoad
    rw [if_pos]
    rw [hobj, Int.toNat_natCast]
  have hc1 : last - keylen = ((pre.length : Nat) : Int) := by omega
  have hrd1 : RBuffer.readI32 ⟨blob, last - keylen, keylen, none⟩
      = (cnt, ⟨blob, last - keylen + 4, keylen, none⟩) := by
    rw [hc1]
    have hd : blob.drop (((pre.length : Nat) : Int)).toNat
        = encodeU32 (i32ToU32 cnt) ++ (encodeI32s offs ++ rest) := by
      rw [Int.toNat_natCast, hblob, List.append_assoc, List.append_assoc, List.drop_left]
      rfl
    have hres := readI32_drop blob ((pre.length : Nat) : Int) keylen (i32ToU32 cnt) _
      (i32ToU32_lt _) (Int.natCast_nonneg _) (by rw [Int.toNat_natCast]; omega) hd
    rw [u32ToI32_i32ToU32 cnt hcnt] at hres
    exact hres
  have hcnt_toNat : cnt.toNat = offs.length := by
    rw [hcval, Int.toNat_natCast]
  have hrd2 : RBuffer.readArrayI32 ⟨blob, last - keylen + 4, keylen, none⟩ offs.length
      = (offs, ⟨blob, last - keylen + 4 + 4 * (offs.length : Int), keylen, none⟩) := by
    have hc2 : last - keylen + 4 = (((pre.length + 4 : Nat)) : Int) := by push_cast; omega
    rw [hc2]
    have hd : blob.drop (((pre.length + 4 : Nat) : Int)).toNat = encodeI32s offs ++ rest := by
      rw [Int.toNat_natCast, ← List.drop_drop, hblob, List.append_assoc, List.append_assoc,
        List.drop_left]
      exact drop4_encodeI32 _ _
    exact readArrayI32_drop blob (((pre.length + 4 : Nat)) : Int) keylen offs rest hoffs
      (Int.natCast_nonneg _) (by rw [Int.toNat_natCast]; omega) hd
  unfold inflate
  dsimp only [basketSpan]
  rw [if_neg hsz]
  rw [hfr]
  dsimp only
  rw [hunm]
  dsimp only
  rw [hkload]
  dsimp only
  rw [if_pos heoff]
  dsimp only [RBuffer.reset, RBuffer.setPos]
  rw [hrd1]
  dsimp only
  rw [hcnt_toNat, hrd2]

theorem basketOffsets_length (k : Int) (sizes : List Int) :
    (basketOffsets k sizes).length = sizes.length + 1 := by
  induction sizes generalizing k with
  | nil => rfl
  | cons s rest ih => simp [basketOffsets, ih]

theorem basketOffsets_head (k : Int) (sizes : List Int) :
    (basketOffsets k sizes).head? = some k := by
  cases sizes <;> rfl

theorem basketOffsets_chain (k : Int) (sizes : List Int) (h : ∀ s ∈ sizes, 0 < s) :
    List.Chain' (· < ·) (basketOffsets k sizes) := by
  induction sizes generalizing k with
  | nil => simp [basketOffsets]
  | cons s rest ih =>
      show List.Chain' (· < ·) (k :: basketOffsets (k + s) rest)
      rw [List.chain'_cons']
      refine ⟨?_, ih (k + s) (fun t ht => h t (by simp [ht]))⟩
      intro y hy
      rw [basketOffsets_head] at hy
      have hys : y = k + s := by
        simpa using hy.symm
      have hs : 0 < s := h s (by simp)
      omega

/-- C4: for a basket of a branch holding variable-length leaves
(`eoff > 0`), `inflate` reinterprets the decompressed buffer's tail as
an offsets table: with the cursor positioned at the basket's declared
`last` pointer the buffer holds a 4-byte count `cnt` followed by the
4-byte encodings of `offs`, the read succeeds and exactly those
`cnt.toNat` offsets become the basket's offsets table. -/
theorem inflate_offsets_table (rbk : RBkt) (id eoff st sp : Int)
    (keylen objlen last nevsize cnt : Int) (pre rest : List Nat) (offs : List Int)
    (heoff : 0 < eoff)
    (hkl : i32Range keylen) (hol : i32Range objlen) (hla : i32Range last)
    (hnev : i32Range nevsize) (hcnt : i32Range cnt)
    (hoffs : ∀ x ∈ offs, i32Range x)
    (hcval : cnt = (offs.length : Int))
    (hlast : last = keylen + (pre.length : Int))
    (hobj : objlen = ((pre ++ encodeI32 cnt ++ encodeI32s offs ++ rest).length : Int)) :
    (inflate rbk id (basketSpan (basketRaw keylen objlen last nevsize
        (pre ++ encodeI32 cnt ++ encodeI32s offs ++ rest)) st sp) eoff
      (basketRaw keylen objlen last nevsize
        (pre ++ encodeI32 cnt ++ encodeI32s offs ++ rest))).2 = none
    ∧ (inflate rbk id (basketSpan (basketRaw keylen objlen last nevsize
        (pre ++ encodeI32 cnt ++ encodeI32s offs ++ rest)) st sp) eoff
      (basketRaw keylen objlen last nevsize
        (pre ++ encodeI32 cnt ++ encodeI32s offs ++ rest))).1.bk.offsets = offs
    ∧ offs.length = cnt.toNat := by
  rw [inflate_offsets_red rbk id eoff st sp keylen objlen last nevsize cnt pre rest offs
    heoff hkl hol hla hnev hcnt hoffs hcval hlast hobj]
  refine ⟨rfl, rfl, ?_⟩
  rw [hcval, Int.toNat_natCast]

/-- Closed witness for C4: a concrete basket record whose tail holds
the count 2 and the offsets `[6, 8]`. -/
theorem inflate_offsets_table_witness :
    (inflate exRBkt 1 (basketSpan (basketRaw 5 13 6 1
        ([9] ++ encodeI32 2 ++ encodeI32s [6, 8] ++ [])) 0 2) 1
      (basketRaw 5 13 6 1 ([9] ++ encodeI32 2 ++ encodeI32s [6, 8] ++ []))).2 = none
    ∧ (inflate exRBkt 1 (basketSpan (basketRaw 5 13 6 1
        ([9] ++ encodeI32 2 ++ encodeI32s [6, 8] ++ [])) 0 2) 1
      (basketRaw 5 13 6 1 ([9] ++ encodeI32 2 ++ encodeI32s [6, 8] ++ []))).1.bk.offsets
        = [6, 8]
    ∧ ([6, 8] : List Int).length = (2 : Int).toNat :=
  inflate_offsets_table exRBkt 1 1 0 2 5 13 6 1 2 [9] [] [6, 8]
    (by decide) (by decide) (by decide) (by decide) (by decide) (by decide)
    (by decide) (by decide) (by decide) (by decide)

/-- C5: for a basket of a branch with variable-length leaves whose
offsets table was produced by the writer — entry `i` starts where entry
`i - 1` ends, each entry occupying at least one byte — the offsets table
produced by inflating the basket has length `entries + 1` and is
strictly increasing. -/
theorem inflate_offsets_invariant (rbk : RBkt) (id eoff st sp : Int)
    (keylen objlen last nevsize : Int) (pre rest : List Nat) (sizes : List Int)
    (heoff : 0 < eoff)
    (hsizes : ∀ s ∈ sizes, 0 < s)
    (hkl : i32Range keylen) (hol : i32Range objlen) (hla : i32Range last)
    (hnev : i32Range nevsize)
    (hcnt : i32Range (((basketOffsets keylen sizes).length : Nat) : Int))
    (hoffs : ∀ x ∈ basketOffsets keylen sizes, i32Range x)
    (hlast : last = keylen + (pre.length : Int))
    (hobj : objlen = ((pre ++ encodeI32 (((basketOffsets keylen sizes).length : Nat) : Int)
        ++ encodeI32s (basketOffsets keylen sizes) ++ rest).length : Int)) :
    (inflate rbk id (basketSpan (basketRaw keylen objlen last nevsize
        (pre ++ encodeI32 (((basketOffsets keylen sizes).length : Nat) : Int)
          ++ encodeI32s (basketOffsets keylen sizes) ++ rest)) st sp) eoff
      (basketRaw keylen objlen last nevsize
        (pre ++ encodeI32 (((basketOffsets keylen sizes).length : Nat) : Int)
          ++ encodeI32s (basketOffsets keylen sizes) ++ rest))).1.bk.offsets.length
      = sizes.length + 1
    ∧ List.Chain' (· < ·)
      (inflate rbk id (basketSpan (basketRaw keylen objlen last nevsize
        (pre ++ encodeI32 (((basketOffsets keylen sizes).length : Nat) : Int)
          ++ encodeI32s (basketOffsets keylen sizes) ++ rest)) st sp) eoff
      (basketRaw keylen objlen last nevsize
        (pre ++ encodeI32 (((basketOffsets keylen sizes).length : Nat) : Int)
          ++ encodeI32s (basketOffsets keylen sizes) ++ rest))).1.bk.offsets := by
  rw [inflate_offsets_red rbk id eoff st sp keylen objlen last nevsize
    (((basketOffsets keylen sizes).length : Nat) : Int) pre rest (basketOffsets keylen sizes)
    heoff hkl hol hla hnev hcnt hoffs rfl hlast hobj]
  exact ⟨basketOffsets_length keylen sizes, basketOffsets_chain keylen sizes hsizes⟩

/-- Closed witness for C5: entries of sizes 2 and 3 after a 5-byte key
header give the offsets table `[5, 7, 10]` — three entries' bounds for
two entries, strictly increasing. -/
theorem inflate_offsets_invariant_witness :
    (inflate exRBkt 1 (basketSpan (basketRaw 5 17 6 1
        ([9] ++ encodeI32 (((basketOffsets 5 [2, 3]).length : Nat) : Int)
          ++ encodeI32s (basketOffsets 5 [2, 3]) ++ [])) 0 2) 1
      (basketRaw 5 17 6 1
        ([9] ++ encodeI32 (((basketOffsets 5 [2, 3]).length : Nat) : Int)
          ++ encodeI32s (basketOffsets 5 [2, 3]) ++ []))).1.bk.offsets.length
      = ([2, 3] : List Int).length + 1
    ∧ List.Chain' (· < ·)
      (inflate exRBkt 1 (basketSpan (basketRaw 5 17 6 1
        ([9] ++ encodeI32 (((basketOffsets 5 [2, 3]).length : Nat) : Int)
          ++ encodeI32s (basketOffsets 5 [2, 3]) ++ [])) 0 2) 1
      (basketRaw 5 17 6 1
        ([9] ++ encodeI32 (((basketOffsets 5 [2, 3]).length : Nat) : Int)
          ++ encodeI32s (basketOffsets 5 [2, 3]) ++ []))).1.bk.offsets :=
  inflate_offsets_invariant exRBkt 1 1 0 2 5 17 6 1 [9] [] [2, 3]
    (by decide) (by decide) (by decide) (by decide) (by decide) (by decide)
    (by decide) (by decide) (by decide) (by decide)

/-- C1: for every entry and leaf, `loadRLeaf` computes the per-entry
byte offset as `entry_in_basket * element_size + leaf.offset +
key_header_len` when the basket has no offsets table, and as the
offsets-table entry for that entry plus the leaf's offset when a table
is present; it seeks the cursor to that offset (after the seek the
cursor's position is exactly the computed offset) and delegates to the
leaf's typed decode. -/
theorem loadRLeaf_offset_formula {α : Type} (rbk : RBkt) (entry : Int) (leafOff : Int)
    (dec : RBuffer → α × RBuffer) :
    (rbk.bk.offsets = [] →
        loadRLeaf rbk entry leafOff dec
          = seekAndDecode rbk (entry * rbk.bk.nevsize + leafOff + rbk.bk.key.keylen) dec)
  ∧ (0 ≤ entry →
      ∀ hlt : entry.toNat < rbk.bk.offsets.length,
        loadRLeaf rbk entry leafOff dec
          = seekAndDecode rbk (rbk.bk.offsets.get ⟨entry.toNat, hlt⟩ + leafOff) dec)
  ∧ (∀ p : Int, (rbk.bk.rbuf.setPos p).pos = p) := by
  refine ⟨?_, ?_, fun p => setPos_pos _ p⟩
  · intro h
    unfold loadRLeaf seekAndDecode
    rw [h]
    simp
  · intro _ hlt
    unfold loadRLeaf seekAndDecode
    have hne : ¬ rbk.bk.offsets.length = 0 := by omega
    rw [if_neg hne]
    rw [List.getD_eq_get _ _ hlt]

/-- Closed witness for C1: on a concrete basket with offsets table
`[3, 5, 8]`, entry 1 and leaf offset 2, `loadRLeaf` seeks to `5 + 2` and
delegates to the byte decode. -/
theorem loadRLeaf_offset_formula_witness :
    loadRLeaf exRBkt 1 2 RBuffer.readU8
      = seekAndDecode exRBkt (exRBkt.bk.offsets.get ⟨(1 : Int).toNat, by decide⟩ + 2)
          RBuffer.readU8 :=
  (loadRLeaf_offset_formula exRBkt 1 2 RBuffer.readU8).2.1 (by decide) (by decide)

/-- C2: a basket whose decompressed payload disagrees in size with the
key's declared uncompressed length makes `inflate` fail with
`CorruptBasket`, surfaced immediately as the call's result. -/
theorem inflate_corrupt_basket (rbk : RBkt) (id : Int) (span : RSpan) (eoff : Int)
    (f : List Nat) (b : Bkt)
    (hb : span.bkt = some b) (hsz : span.sz = 0)
    (hlen : b.key.blob.length ≠ b.key.objlen) :
    (inflate rbk id span eoff f).2 = some HepError.corruptBasket := by
  unfold inflate
  simp only [hb, hsz, if_pos]
  unfold keyLoad
  rw [if_neg hlen]

/-- Closed witness for C2: a recovered basket declaring 5 uncompressed
bytes whose payload has only 2 fails `CorruptBasket`. -/
theorem inflate_corrupt_basket_witness :
    (inflate exRBkt 1 exSpanRecovered 0 []).2 = some HepError.corruptBasket :=
  inflate_corrupt_basket exRBkt 1 exSpanRecovered 0 [] exBadBkt rfl rfl (by decide)

/-- C3 counterexample: `inflate` is not atomic on failure — when the
file read fails, the reader-side basket state has already been mutated
(the basket id and span are set to the requested ones), so the state
after the failed call differs from the state before it. -/
theorem inflate_error_mutates_state :
    (inflate exRBkt 7 exSpanFail 0 []).2 = some HepError.ioError
      ∧ (inflate exRBkt 7 exSpanFail 0 []).1 ≠ exRBkt := by
  decide

/-- C3 (amended): on every call — succeeding or failing — `inflate`
sets the reader-side basket id and entry span to the requested ones;
a failing call can therefore leave partially updated reader state, and
callers must treat the basket as unusable after an error rather than
rely on the previous state being intact. -/
theorem inflate_sets_requested_id_span (rbk : RBkt) (id : Int) (span : RSpan)
    (eoff : Int) (f : List Nat) :
    (inflate rbk id span eoff f).1.id = id ∧ (inflate rbk id span eoff f).1.span = span := by
  refine ⟨?_, ?_⟩ <;>
  · unfold inflate
    dsimp only
    repeat' split
    all_goals rfl

/-- C6: once any operation on a byte cursor fails, the cursor is in a
sticky-error state: every further decode operation is a no-op returning
a zero value, the first error is retained across further operations,
and a chain of reads (`ReadI32` then `ReadArrayI32`) need only be
checked once at the end — a clean final error implies the chain started
clean. -/
theorem cursor_sticky_error (r : RBuffer) (e : HepError) (n : Nat) (h : r.err = some e) :
    r.readU8 = (0, r)
  ∧ r.readI32 = (0, r)
  ∧ r.readU32 = (0, r)
  ∧ r.readBytes n = (List.replicate n 0, r)
  ∧ r.readArrayI32 n = (List.replicate n 0, r)
  ∧ (r.readI32.2.readArrayI32 n).2.err = some e
  ∧ (∀ s : RBuffer, (s.readI32.2.readArrayI32 n).2.err = none → s.err = none) := by
  refine ⟨readU8_sticky r e h, readI32_sticky r e h, readU32_sticky r e h,
    readBytes_sticky r e h n, readArrayI32_sticky r e h n, ?_, ?_⟩
  · rw [readI32_sticky r e h]
    rw [readArrayI32_sticky r e h n]
    exact h
  · intro s hs
    exact readI32_err_of_none s (readArrayI32_err_of_none s.readI32.2 n hs)

/-- Closed witness for C6 on a concrete errored cursor. -/
theorem cursor_sticky_error_witness :
    exErrBuf.readU8 = (0, exErrBuf)
  ∧ exErrBuf.readI32 = (0, exErrBuf)
  ∧ exErrBuf.readU32 = (0, exErrBuf)
  ∧ exErrBuf.readBytes 2 = (List.replicate 2 0, exErrBuf)
  ∧ exErrBuf.readArrayI32 2 = (List.replicate 2 0, exErrBuf)
  ∧ (exErrBuf.readI32.2.readArrayI32 2).2.err = some .shortBuffer
  ∧ (∀ s : RBuffer, (s.readI32.2.readArrayI32 2).2.err = none → s.err = none) :=
  cursor_sticky_error exErrBuf .shortBuffer 2 rfl

/-- Reachability invariant of the table's reference counting: the count
never goes negative, and either the column slice is present with no
column released yet, or it has been cleared with every column released
exactly once. -/
theorem runTbl_inv (ops : List TblOp) (t t2 : RootTable)
    (hinv : 0 ≤ t.refs ∧ ((t.colsPresent = true ∧ ∀ c ∈ t.colReleases, c = 0)
        ∨ (t.colsPresent = false ∧ ∀ c ∈ t.colReleases, c = 1)))
    (hrun : runTbl t ops = some t2) :
    0 ≤ t2.refs ∧ ((t2.colsPresent = true ∧ ∀ c ∈ t2.colReleases, c = 0)
        ∨ (t2.colsPresent = false ∧ ∀ c ∈ t2.colReleases, c = 1)) := by
  induction ops generalizing t with
  | nil =>
      have ht : t = t2 := by
        simpa [runTbl] using hrun
      exact ht ▸ hinv
  | cons op ops ih =>
      cases op with
      | retain =>
          refine ih (tblRetain t) ?_ (by simpa [runTbl] using hrun)
          obtain ⟨h0, hca⟩ := hinv
          exact ⟨by simp [tblRetain]; omega, hca⟩
      | release =>
          rw [show runTbl t (.release :: ops)
              = (match tblRelease t with
                 | none => none
                 | some u => runTbl u ops) from rfl] at hrun
          cases hrel : tblRelease t with
          | none => rw [hrel] at hrun; exact Option.noConfusion hrun
          | some u =>
              rw [hrel] at hrun
              refine ih u ?_ hrun
              obtain ⟨h0, hca⟩ := hinv
              unfold tblRelease at hrel
              by_cases hle : t.refs ≤ 0
              · rw [if_pos hle] at hrel; exact Option.noConfusion hrel
              · rw [if_neg hle] at hrel
                by_cases hz : t.refs - 1 = 0
                · rw [if_pos hz] at hrel
                  obtain rfl : u = _ := (Option.some_inj.mp hrel).symm
                  refine ⟨by simp; omega, Or.inr ⟨rfl, ?_⟩⟩
                  rcases hca with ⟨hp, hc⟩ | ⟨hp, hc⟩
                  · intro c hc2
                    simp only [hp, if_pos] at hc2
                    simp only [List.mem_map] at hc2
                    obtain ⟨x, hx, hxc⟩ := hc2
                    have := hc x hx
                    omega
                  · intro c hc2
                    simp only [hp] at hc2
                    simp only [if_neg Bool.false_ne_true] at hc2
                    exact hc c hc2
                · rw [if_neg hz] at hrel
                  obtain rfl : u = _ := (Option.some_inj.mp hrel).symm
                  exact ⟨by simp; omega, hca⟩

/-- C9: `Retain` increases the reference count by exactly one;
`Release` panics exactly when the count is already zero or negative and
otherwise decreases it by exactly one; a `Release` that reaches zero
clears the column slice, releasing each column once, while one that
leaves the count nonzero touches no column; and along any non-panicking
call sequence from a fresh table every column is released at most once
and never while the column slice is still live. -/
theorem rootTable_refcount (t : RootTable) (n : Nat) (ops : List TblOp) (t2 : RootTable) :
    (tblRetain t).refs = t.refs + 1
  ∧ (tblRelease t = none ↔ t.refs ≤ 0)
  ∧ (∀ u, tblRelease t = some u →
        u.refs = t.refs - 1
        ∧ (u.refs = 0 → u.colsPresent = false
            ∧ (t.colsPresent = true → u.colReleases = t.colReleases.map (· + 1)))
        ∧ (u.refs ≠ 0 → u.colReleases = t.colReleases ∧ u.colsPresent = t.colsPresent))
  ∧ (runTbl (newTable n) ops = some t2 →
        (∀ c ∈ t2.colReleases, c ≤ 1)
        ∧ (t2.colsPresent = true → ∀ c ∈ t2.colReleases, c = 0)) := by
  refine ⟨rfl, ?_, ?_, ?_⟩
  · unfold tblRelease
    by_cases hle : t.refs ≤ 0
    · simp [hle]
    · rw [if_neg hle]
      simp [hle]
      split <;> simp
  · intro u hu
    unfold tblRelease at hu
    by_cases hle : t.refs ≤ 0
    · rw [if_pos hle] at hu; exact Option.noConfusion hu
    · rw [if_neg hle] at hu
      by_cases hz : t.refs - 1 = 0
      · rw [if_pos hz] at hu
        obtain rfl : u = _ := (Option.some_inj.mp hu).symm
        refine ⟨rfl, fun _ => ⟨rfl, fun hp => by simp [hp]⟩, fun hnz => absurd hz hnz⟩
      · rw [if_neg hz] at hu
        obtain rfl : u = _ := (Option.some_inj.mp hu).symm
        exact ⟨rfl, fun h0 => absurd h0 hz, fun _ => ⟨rfl, rfl⟩⟩
  · intro hrun
    have hstart : 0 ≤ (newTable n).refs
        ∧ (((newTable n).colsPresent = true ∧ ∀ c ∈ (newTable n).colReleases, c = 0)
            ∨ ((newTable n).colsPresent = false ∧ ∀ c ∈ (newTable n).colReleases, c = 1)) := by
      refine ⟨by simp [newTable], Or.inl ⟨rfl, ?_⟩⟩
      intro c hc
      simp [newTable] at hc
      exact hc.2
    have hend := runTbl_inv ops (newTable n) t2 hstart hrun
    obtain ⟨-, hca⟩ := hend
    rcases hca with ⟨hp, hc⟩ | ⟨hp, hc⟩
    · exact ⟨fun c h2 => by rw [hc c h2]; decide, fun _ c h2 => hc c h2⟩
    · refine ⟨fun c h2 => by rw [hc c h2], fun hpt => ?_⟩
      rw [hp] at hpt
      exact absurd hpt Bool.false_ne_true
    
/-- Closed witness for C9: retain then two releases on a fresh
two-column table end with both columns released exactly once and the
slice cleared. -/
theorem rootTable_refcount_witness :
    (∀ c ∈ exTblEnd.colReleases, c ≤ 1)
  ∧ (exTblEnd.colsPresent = true → ∀ c ∈ exTblEnd.colReleases, c = 0) :=
  (rootTable_refcount exTbl 2 [.retain, .release, .release] exTblEnd).2.2.2 (by decide)

/-- C10: every booking operation — `BookH1D`, `BookH2D`, `BookP1D`,
`BookS2D` — returns a booking error and registers nothing (the service
state, including all four histogram maps, is unchanged) unless the
service's FSM state lies strictly between `Configured` and `Running`. -/
theorem book_requires_started (svc : HSvc) (name : String)
    (h : ¬(fsmConfigured < svc.state ∧ svc.state < fsmRunning)) :
    bookH1D svc name = (svc, .error .bookError)
  ∧ bookH2D svc name = (svc, .error .bookError)
  ∧ bookP1D svc name = (svc, .error .bookError)
  ∧ bookS2D svc name = (svc, .error .bookError) := by
  have hc : bookCore svc name = .error .bookError := by
    unfold bookCore
    rw [if_pos h]
  refine ⟨?_, ?_, ?_, ?_⟩ <;> simp [bookH1D, bookH2D, bookP1D, bookS2D, hc]

/-- Closed witness for C10: in state `Running` every booking call fails
and the service is untouched. -/
theorem book_requires_started_witness :
    bookH1D exSvc "h" = (exSvc, .error .bookError)
  ∧ bookH2D exSvc "h" = (exSvc, .error .bookError)
  ∧ bookP1D exSvc "h" = (exSvc, .error .bookError)
  ∧ bookS2D exSvc "h" = (exSvc, .error .bookError) :=
  book_requires_started exSvc "h" (by decide)

theorem drop4_encodeU32 (m : Nat) (Y : List Nat) : (encodeU32 m ++ Y).drop 4 = Y := by
  have := List.drop_left (encodeU32 m) Y
  simpa [encodeU32_length] using this

theorem drop_toNat_shift (d : List Nat) (c : Int) (t : Nat) (hc : 0 ≤ c) :
    d.drop ((c + (t : Int))).toNat = (d.drop c.toNat).drop t := by
  rw [List.drop_drop]
  congr 1
  omega

/-- Decoding one field over its marshalled image recovers the field and
advances the cursor past it. -/
theorem unmarshalField_at (k : FieldKind) (fv : FieldVal) (pre rest : List Nat) (off : Int)
    (hf : fieldOK k fv = true) :
    unmarshalField k ⟨pre ++ marshalField fv ++ rest, (pre.length : Int), off, none⟩
      = (fv, ⟨pre ++ marshalField fv ++ rest,
              (pre.length : Int) + ((marshalField fv).length : Int), off, none⟩) := by
  cases k with
  | i32Kind =>
      cases fv with
      | strVal s => exact absurd hf (by simp [fieldOK])
      | i32Val x =>
          have hx : i32Range x := by
            have := of_decide_eq_true hf
            exact this
          unfold unmarshalField
          have hread := readI32_at pre rest off (i32ToU32 x) (i32ToU32_lt x)
          rw [u32ToI32_i32ToU32 x hx] at hread
          rw [show marshalField (FieldVal.i32Val x) = encodeU32 (i32ToU32 x) from rfl]
          rw [hread]
          norm_num [encodeU32_length]
  | strKind =>
      cases fv with
      | i32Val x => exact absurd hf (by simp [fieldOK])
      | strVal s =>
          have hs : s.length < 4294967296 := by
            have := of_decide_eq_true hf
            exact this
          unfold unmarshalField
          have h1 : pre ++ marshalField (FieldVal.strVal s) ++ rest
              = pre ++ encodeU32 s.length ++ (s ++ rest) := by
            simp [marshalField]
          rw [h1]
          rw [readU32_at pre (s ++ rest) off s.length hs]
          dsimp only
          have h2 : pre ++ encodeU32 s.length ++ (s ++ rest)
              = (pre ++ encodeU32 s.length) ++ s ++ rest := by
            simp
          have hlen2 : (((pre ++ encodeU32 s.length).length : Nat) : Int)
              = (pre.length : Int) + 4 := by
            simp [encodeU32_length]
          have hb := readBytes_at (pre ++ encodeU32 s.length) s rest off
          rw [← h2] at hb
          rw [hlen2] at hb
          rw [hb]
          have hc : (pre.length : Int) + 4 + ((s.length : Nat) : Int)
              = (pre.length : Int) + (((marshalField (FieldVal.strVal s)).length : Nat) : Int) := by
            simp [marshalField, encodeU32_length]
            push_cast
            ring
          rw [hc]

/-- Decoding an object over its marshalled image recovers the object —
fields are read strictly in declared order. -/
theorem unmarshalObj_at (desc : ClassDesc) (v : ObjVal) (pre rest : List Nat) (off : Int)
    (hv : objOK desc v = true) :
    unmarshalObj desc ⟨pre ++ marshalObj v ++ rest, (pre.length : Int), off, none⟩
      = (v, ⟨pre ++ marshalObj v ++ rest,
             (pre.length : Int) + ((marshalObj v).length : Int), off, none⟩) := by
  induction desc generalizing v pre with
  | nil =>
      cases v with
      | nil =>
          simp [unmarshalObj, marshalObj]
      | cons fv vs => exact absurd hv (by simp [objOK])
  | cons k ks ih =>
      cases v with
      | nil => exact absurd hv (by simp [objOK])
      | cons fv vs =>
          have hok : fieldOK k fv = true ∧ objOK ks vs = true := by
            simpa [objOK, Bool.and_eq_true] using hv
          have hm : marshalObj (fv :: vs) = marshalField fv ++ marshalObj vs := rfl
          have h1 : pre ++ marshalObj (fv :: vs) ++ rest
              = pre ++ marshalField fv ++ (marshalObj vs ++ rest) := by
            rw [hm]; simp
          unfold unmarshalObj
          rw [h1]
          rw [unmarshalField_at k fv pre (marshalObj vs ++ rest) off hok.1]
          dsimp only
          have h2 : pre ++ marshalField fv ++ (marshalObj vs ++ rest)
              = (pre ++ marshalField fv) ++ marshalObj vs ++ rest := by
            simp
          have hlen2 : (((pre ++ marshalField fv).length : Nat) : Int)
              = (pre.length : Int) + ((marshalField fv).length : Int) := by
            push_cast [List.length_append]
            ring
          have hb := ih vs (pre ++ marshalField fv) hok.2
          rw [← h2] at hb
          rw [hlen2] at hb
          rw [hb]
          have hc : (pre.length : Int) + ((marshalField fv).length : Int)
                + ((marshalObj vs).length : Int)
              = (pre.length : Int) + (((marshalObj (fv :: vs)).length : Nat) : Int) := by
            rw [hm]
            push_cast [List.length_append]
            ring
          rw [hc]

/-- `Unmarshal` over a fresh cursor on `Marshal` output recovers the
value. -/
theorem unmarshal_marshal (desc : ClassDesc) (v : ObjVal) (hv : objOK desc v = true) :
    (unmarshalObj desc (RBuffer.reset (marshalObj v) 0)).1 = v := by
  have h := unmarshalObj_at desc v [] [] 0 hv
  have h2 : ([] : List Nat) ++ marshalObj v ++ [] = marshalObj v := by simp
  rw [h2] at h
  have h3 : RBuffer.reset (marshalObj v) 0
      = ⟨marshalObj v, ((([] : List Nat).length : Nat) : Int), 0, none⟩ := by
    simp [RBuffer.reset]
  rw [h3, h]

/-- C8: `Put` assigns each new key the cycle `1 + max(existing cycles
for that name)`; two successive `Put` calls with the same name on a
fresh file yield cycles 1 then 2; unspecified-cycle `Get` resolves to
the highest cycle and returns the second object, while `Get(name, 1)`
returns the first. -/
theorem put_cycle_monotonic (fl : RFile) (n pl : List Nat) (desc : ClassDesc) (v1 v2 : ObjVal)
    (h1 : objOK desc v1 = true) (h2 : objOK desc v2 = true) :
    (fPut fl n pl).keys.getLast? = some ⟨n, 1 + maxCycle fl.keys n, pl⟩
  ∧ (fPutObj (fPutObj fCreate n v1) n v2).keys
      = [⟨n, 1, marshalObj v1⟩, ⟨n, 2, marshalObj v2⟩]
  ∧ fGetObj (fPutObj (fPutObj fCreate n v1) n v2) desc n = .ok v2
  ∧ fGetCycleObj (fPutObj (fPutObj fCreate n v1) n v2) desc n 1 = .ok v1 := by
  have hkeys : (fPutObj (fPutObj fCreate n v1) n v2).keys
      = [⟨n, 1, marshalObj v1⟩, ⟨n, 2, marshalObj v2⟩] := by
    simp [fPutObj, fPut, fCreate, maxCycle]
  refine ⟨?_, hkeys, ?_, ?_⟩
  · simp [fPut]
  · have hb : bestKey [(⟨n, 1, marshalObj v1⟩ : RKey), ⟨n, 2, marshalObj v2⟩] n
        = some ⟨n, 2, marshalObj v2⟩ := by
      simp [bestKey]
    show fGetObj ⟨(fPutObj (fPutObj fCreate n v1) n v2).keys⟩ desc n = .ok v2
    rw [hkeys]
    unfold fGetObj fGet
    rw [hb]
    dsimp only
    rw [unmarshal_marshal desc v2 h2]
  · show fGetCycleObj ⟨(fPutObj (fPutObj fCreate n v1) n v2).keys⟩ desc n 1 = .ok v1
    rw [hkeys]
    unfold fGetCycleObj fGetCycle
    have hf : List.find? (fun k => k.name = n && k.cycle = 1)
        [(⟨n, 1, marshalObj v1⟩ : RKey), ⟨n, 2, marshalObj v2⟩]
        = some ⟨n, 1, marshalObj v1⟩ := by
      simp [List.find?]
    rw [hf]
    dsimp only
    rw [unmarshal_marshal desc v1 h1]

/-- Closed witness for C8 with two integer-valued puts under one name. -/
theorem put_cycle_monotonic_witness :
    (fPut fCreate [0] [7]).keys.getLast? = some ⟨[0], 1 + maxCycle fCreate.keys [0], [7]⟩
  ∧ (fPutObj (fPutObj fCreate [0] [.i32Val 7]) [0] [.i32Val 9]).keys
      = [⟨[0], 1, marshalObj [.i32Val 7]⟩, ⟨[0], 2, marshalObj [.i32Val 9]⟩]
  ∧ fGetObj (fPutObj (fPutObj fCreate [0] [.i32Val 7]) [0] [.i32Val 9]) exDesc [0]
      = .ok [.i32Val 9]
  ∧ fGetCycleObj (fPutObj (fPutObj fCreate [0] [.i32Val 7]) [0] [.i32Val 9]) exDesc [0] 1
      = .ok [.i32Val 7] :=
  put_cycle_monotonic fCreate [0] [7] exDesc [.i32Val 7] [.i32Val 9] (by decide) (by decide)

theorem drop_toNat_shift4 (d : List Nat) (c : Int) (hc : 0 ≤ c) :
    d.drop ((c + 4)).toNat = (d.drop c.toNat).drop 4 := by
  rw [List.drop_drop]
  congr 1
  omega

theorem dropLen_left (a b : List Nat) : (a ++ b).drop a.length = b :=
  List.drop_left a b

theorem encodeKey_length (k : RKey) :
    (encodeKey k).length = 12 + k.name.length + k.payload.length := by
  simp [encodeKey, encodeU32_length]
  omega

/-- Decoding one key index entry over its wire image recovers the key
and advances the cursor past it. -/
theorem decodeKey_drop (d : List Nat) (c off : Int) (k : RKey) (rest : List Nat)
    (hk : keyWF k) (hc : 0 ≤ c) (hlen : c.toNat ≤ d.length)
    (hdrop : d.drop c.toNat = encodeKey k ++ rest) :
    decodeKey ⟨d, c, off, none⟩ = (k, ⟨d, c + ((encodeKey k).length : Int), off, none⟩) := by
  obtain ⟨hk1, hk2, hk3⟩ := hk
  have hdl : d.length - c.toNat = (encodeKey k).length + rest.length := by
    rw [← List.length_drop, hdrop, List.length_append]
  have heklen := encodeKey_length k
  have hd0 : d.drop c.toNat = encodeU32 k.name.length
      ++ (k.name ++ (encodeU32 k.cycle ++ (encodeU32 k.payload.length ++ (k.payload ++ rest)))) := by
    rw [hdrop]
    simp [encodeKey]
  have r1 := readU32_drop d c off k.name.length _ hk1 hc hlen hd0
  have hc1 : (0 : Int) ≤ c + 4 := by omega
  have hl1 : (c + 4).toNat ≤ d.length := by omega
  have hd1 : d.drop ((c + 4)).toNat
      = k.name ++ (encodeU32 k.cycle ++ (encodeU32 k.payload.length ++ (k.payload ++ rest))) := by
    rw [drop_toNat_shift4 d c hc, hd0, drop4_encodeU32]
  have r2 := readBytes_drop d (c + 4) off k.name _ hc1 hl1 hd1
  have hc2 : (0 : Int) ≤ c + 4 + (k.name.length : Int) := by omega
  have hl2 : (c + 4 + (k.name.length : Int)).toNat ≤ d.length := by omega
  have hd2 : d.drop ((c + 4 + (k.name.length : Int))).toNat
      = encodeU32 k.cycle ++ (encodeU32 k.payload.length ++ (k.payload ++ rest)) := by
    rw [drop_toNat_shift d (c + 4) k.name.length hc1, hd1, dropLen_left]
  have r3 := readU32_drop d (c + 4 + (k.name.length : Int)) off k.cycle _ hk2 hc2 hl2 hd2
  have hc3 : (0 : Int) ≤ c + 4 + (k.name.length : Int) + 4 := by omega
  have hl3 : (c + 4 + (k.name.length : Int) + 4).toNat ≤ d.length := by omega
  have hd3 : d.drop ((c + 4 + (k.name.length : Int) + 4)).toNat
      = encodeU32 k.payload.length ++ (k.payload ++ rest) := by
    rw [drop_toNat_shift4 d _ hc2, hd2, drop4_encodeU32]
  have r4 := readU32_drop d (c + 4 + (k.name.length : Int) + 4) off k.payload.length _
    hk3 hc3 hl3 hd3
  have hc4 : (0 : Int) ≤ c + 4 + (k.name.length : Int) + 4 + 4 := by omega
  have hl4 : (c + 4 + (k.name.length : Int) + 4 + 4).toNat ≤ d.length := by omega
  have hd4 : d.drop ((c + 4 + (k.name.length : Int) + 4 + 4)).toNat = k.payload ++ rest := by
    rw [drop_toNat_shift4 d _ hc3, hd3, drop4_encodeU32]
  have r5 := readBytes_drop d (c + 4 + (k.name.length : Int) + 4 + 4) off k.payload rest
    hc4 hl4 hd4
  unfold decodeKey
  rw [r1]
  dsimp only
  rw [r2]
  dsimp only
  rw [r3]
  dsimp only
  rw [r4]
  dsimp only
  rw [r5]
  dsimp only
  have hfinal : c + 4 + (k.name.length : Int) + 4 + 4 + (k.payload.length : Int)
      = c + ((encodeKey k).length : Int) := by
    rw [heklen]
    push_cast
    ring
  rw [hfinal]

theorem encodeKeys_length (ks : List RKey) :
    (encodeKeys ks).length = (ks.map (fun k => (encodeKey k).length)).sum := by
  induction ks with
  | nil => rfl
  | cons k ks ih => simp [encodeKeys, ih]

/-- Decoding `n` key index entries over their wire image recovers the
entries in order. -/
theorem decodeKeys_drop (ks : List RKey) (d : List Nat) (c off : Int) (rest : List Nat)
    (hwf : ∀ k ∈ ks, keyWF k) (hc : 0 ≤ c) (hlen : c.toNat ≤ d.length)
    (hdrop : d.drop c.toNat = encodeKeys ks ++ rest) :
    decodeKeys ⟨d, c, off, none⟩ ks.length
      = (ks, ⟨d, c + ((encodeKeys ks).length : Int), off, none⟩) := by
  induction ks generalizing c with
  | nil =>
      show ([], _) = _
      have : c + (((encodeKeys ([] : List RKey)).length : Nat) : Int) = c := by
        show c + ((0 : Nat) : Int) = c
        simp
      rw [this]
  | cons k ks ih =>
      have hd0 : d.drop c.toNat = encodeKey k ++ (encodeKeys ks ++ rest) := by
        rw [hdrop]
        show (encodeKey k ++ encodeKeys ks) ++ rest = _
        rw [List.append_assoc]
      have hdl : d.length - c.toNat = (encodeKey k).length + ((encodeKeys ks).length + rest.length) := by
        rw [← List.length_drop, hd0]
        simp
      have r1 := decodeKey_drop d c off k (encodeKeys ks ++ rest) (hwf k (by simp)) hc hlen hd0
      have hc1 : (0 : Int) ≤ c + ((encodeKey k).length : Int) := by omega
      have hl1 : (c + ((encodeKey k).length : Int)).toNat ≤ d.length := by omega
      have hd1 : d.drop ((c + ((encodeKey k).length : Int))).toNat = encodeKeys ks ++ rest := by
        rw [drop_toNat_shift d c (encodeKey k).length hc, hd0, dropLen_left]
      have r2 := ih (c + ((encodeKey k).length : Int)) (fun q hq => hwf q (by simp [hq])) hc1 hl1 hd1
      show (let p := decodeKey ⟨d, c, off, none⟩
            let q := decodeKeys p.2 ks.length
            (p.1 :: q.1, q.2)) = _
      rw [r1]
      dsimp only
      rw [r2]
      have hfinal : c + ((encodeKey k).length : Int) + ((encodeKeys ks).length : Int)
          = c + (((encodeKeys (k :: ks)).length : Nat) : Int) := by
        show _ = c + (((encodeKey k ++ encodeKeys ks).length : Nat) : Int)
        push_cast [List.length_append]
        ring
      rw [hfinal]

/-- Reopening the serialized key index recovers the file state. -/
theorem fOpen_fClose (fl : RFile) (hwf : ∀ k ∈ fl.keys, keyWF k)
    (hn : fl.keys.length < 4294967296) :
    fOpen (fClose fl) = .ok fl := by
  have hbytes : fClose fl = encodeU32 fl.keys.length ++ encodeKeys fl.keys := rfl
  have hblen : (fClose fl).length = 4 + (encodeKeys fl.keys).length := by
    rw [hbytes]
    simp [encodeU32_length]
  have hd0 : (fClose fl).drop ((0 : Int)).toNat
      = encodeU32 fl.keys.length ++ encodeKeys fl.keys := by
    rw [show ((0 : Int)).toNat = 0 from rfl, List.drop_zero, hbytes]
  have r1 := readU32_drop (fClose fl) 0 0 fl.keys.length (encodeKeys fl.keys) hn
    (by norm_num) (by omega) hd0
  have hd1 : (fClose fl).drop (((0 : Int) + 4)).toNat = encodeKeys fl.keys ++ [] := by
    rw [drop_toNat_shift4 _ 0 (by norm_num), hd0, drop4_encodeU32, List.append_nil]
  have r2 := decodeKeys_drop fl.keys (fClose fl) (0 + 4) 0 [] hwf (by norm_num)
    (by omega) hd1
  unfold fOpen
  rw [show RBuffer.reset (fClose fl) 0 = ⟨fClose fl, 0, 0, none⟩ from rfl]
  dsimp only
  rw [r1]
  dsimp only
  rw [r2]

theorem maxCycle_eq_zero (ks : List RKey) (n : List Nat) (h : hasName ks n = false) :
    maxCycle ks n = 0 := by
  induction ks with
  | nil => rfl
  | cons k ks ih =>
      have h2 : ¬(k.name = n) ∧ hasName ks n = false := by
        simpa [hasName, List.any_cons] using h
      unfold maxCycle
      rw [if_neg h2.1]
      exact ih h2.2

theorem hasName_append (a b : List RKey) (n : List Nat) :
    hasName (a ++ b) n = (hasName a n || hasName b n) := by
  simp [hasName, List.any_append]

/-- Folding `Put` over pairwise-fresh names appends one cycle-1 key per
pair, in order. -/
theorem fPutAll_keys (ps : List (List Nat × ObjVal)) (fl : RFile)
    (hfresh : ∀ p ∈ ps, hasName fl.keys p.1 = false)
    (hnodup : (ps.map Prod.fst).Nodup) :
    (fPutAll fl ps).keys = fl.keys ++ ps.map mkKey := by
  induction ps generalizing fl with
  | nil => simp [fPutAll]
  | cons p ps ih =>
      have hf : hasName fl.keys p.1 = false := hfresh p (by simp)
      have hput : (fPutObj fl p.1 p.2).keys = fl.keys ++ [mkKey p] := by
        simp [fPutObj, fPut, mkKey, maxCycle_eq_zero fl.keys p.1 hf]
      have hhead : p.1 ∉ ps.map Prod.fst := (List.nodup_cons.mp (by simpa using hnodup)).1
      have hfresh2 : ∀ q ∈ ps, hasName (fPutObj fl p.1 p.2).keys q.1 = false := by
        intro q hq
        rw [hput, hasName_append]
        have h1 : hasName fl.keys q.1 = false := hfresh q (by simp [hq])
        have hne : ¬(p.1 = q.1) := by
          intro he
          exact hhead (he ▸ List.mem_map_of_mem Prod.fst hq)
        have h2 : hasName [mkKey p] q.1 = false := by
          simp [hasName, mkKey, hne]
        rw [h1, h2]
        rfl
      have hnodup2 : (ps.map Prod.fst).Nodup := (List.nodup_cons.mp (by simpa using hnodup)).2
      show (fPutAll (fPutObj fl p.1 p.2) ps).keys = _
      rw [ih (fPutObj fl p.1 p.2) hfresh2 hnodup2, hput]
      simp

theorem bestKey_none (ks : List RKey) (n : List Nat) (h : hasName ks n = false) :
    bestKey ks n = none := by
  induction ks with
  | nil => rfl
  | cons k ks ih =>
      have h2 : ¬(k.name = n) ∧ hasName ks n = false := by
        simpa [hasName, List.any_cons] using h
      unfold bestKey
      rw [ih h2.2]
      exact if_neg h2.1

/-- A name carried by exactly one key resolves to that key, whatever
its position in the index. -/
theorem bestKey_unique (ks1 ks2 : List RKey) (k : RKey) (n : List Nat)
    (hkn : k.name = n)
    (h1 : hasName ks1 n = false) (h2 : hasName ks2 n = false) :
    bestKey (ks1 ++ k :: ks2) n = some k := by
  induction ks1 with
  | nil =>
      show bestKey (k :: ks2) n = some k
      unfold bestKey
      rw [bestKey_none ks2 n h2]
      exact if_pos hkn
  | cons a ks1 ih =>
      have h3 : ¬(a.name = n) ∧ hasName ks1 n = false := by
        simpa [hasName, List.any_cons] using h1
      show bestKey (a :: (ks1 ++ k :: ks2)) n = some k
      unfold bestKey
      rw [ih h3.2]
      exact if_neg h3.1

/-- C7: for every list of `(name, value)` puts of a registered class
with pairwise-distinct names on a created file, `Close` followed by
`Open` of the serialized key index yields the same file state; `Get` of
each name on the reopened file returns an object equal to the value
put; and `Keys` on both the written and the reopened file report
exactly one cycle-1 entry per name put, in order. -/
theorem put_close_open_get (ps : List (List Nat × ObjVal)) (desc : ClassDesc)
    (hnodup : (ps.map Prod.fst).Nodup)
    (hok : ∀ p ∈ ps, objOK desc p.2 = true)
    (hwf : ∀ p ∈ ps, p.1.length < 4294967296 ∧ (marshalObj p.2).length < 4294967296)
    (hnum : ps.length < 4294967296) :
    fOpen (fClose (fPutAll fCreate ps)) = .ok (fPutAll fCreate ps)
  ∧ (∀ p ∈ ps, fGetObj (fPutAll fCreate ps) desc p.1 = .ok p.2)
  ∧ fKeys (fPutAll fCreate ps) = ps.map (fun p => (p.1, 1))
  ∧ (∀ fl2, fOpen (fClose (fPutAll fCreate ps)) = .ok fl2 →
        fKeys fl2 = ps.map (fun p => (p.1, 1))) := by
  have hkeys : (fPutAll fCreate ps).keys = ps.map mkKey := by
    have h := fPutAll_keys ps fCreate (fun p _ => rfl) hnodup
    simpa [fCreate] using h
  have h1 : fOpen (fClose (fPutAll fCreate ps)) = .ok (fPutAll fCreate ps) := by
    apply fOpen_fClose
    · intro k hk
      rw [hkeys] at hk
      obtain ⟨p, hp, rfl⟩ := List.mem_map.mp hk
      obtain ⟨hw1, hw2⟩ := hwf p hp
      refine ⟨hw1, ?_, hw2⟩
      show (1 : Nat) < 4294967296
      norm_num
    · rw [hkeys, List.length_map]
      exact hnum
  have h3 : fKeys (fPutAll fCreate ps) = ps.map (fun p => (p.1, 1)) := by
    rw [fKeys, hkeys, List.map_map]
    rfl
  refine ⟨h1, ?_, h3, ?_⟩
  · intro p hp
    obtain ⟨l1, l2, rfl⟩ := List.append_of_mem hp
    have hmapped : (fPutAll fCreate (l1 ++ p :: l2)).keys
        = l1.map mkKey ++ mkKey p :: l2.map mkKey := by
      rw [hkeys]
      simp
    have hnd : (l1.map Prod.fst ++ p.1 :: l2.map Prod.fst).Nodup := by
      simpa using hnodup
    have hnotmem : p.1 ∉ l1.map Prod.fst ++ l2.map Prod.fst :=
      (List.nodup_cons.mp (List.nodup_middle.mp hnd)).1
    have hn1 : hasName (l1.map mkKey) p.1 = false := by
      simp only [hasName, List.any_eq_false]
      intro q hq
      obtain ⟨x, hx, rfl⟩ := List.mem_map.mp hq
      simp only [mkKey, decide_eq_true_eq]
      intro heq
      exact hnotmem (List.mem_append_left _ (heq ▸ List.mem_map_of_mem Prod.fst hx))
    have hn2 : hasName (l2.map mkKey) p.1 = false := by
      simp only [hasName, List.any_eq_false]
      intro q hq
      obtain ⟨x, hx, rfl⟩ := List.mem_map.mp hq
      simp only [mkKey, decide_eq_true_eq]
      intro heq
      exact hnotmem (List.mem_append_right _ (heq ▸ List.mem_map_of_mem Prod.fst hx))
    have hbest := bestKey_unique (l1.map mkKey) (l2.map mkKey) (mkKey p) p.1 rfl hn1 hn2
    unfold fGetObj fGet
    rw [hmapped, hbest]
    dsimp only
    rw [show (mkKey p).payload = marshalObj p.2 from rfl]
    rw [unmarshal_marshal desc p.2 (hok p hp)]
  · intro fl2 h2
    rw [h1] at h2
    injection h2 with he
    rw [← he]
    exact h3

/-- Closed witness for C7: two puts of integer-valued objects under the
names `[0]` and `[1]` survive close/reopen, read back equal, and `Keys`
lists exactly the two names at cycle 1. -/
theorem put_close_open_get_witness :
    fOpen (fClose (fPutAll fCreate exPs)) = .ok (fPutAll fCreate exPs)
  ∧ (∀ p ∈ exPs, fGetObj (fPutAll fCreate exPs) exDesc p.1 = .ok p.2)
  ∧ fKeys (fPutAll fCreate exPs) = exPs.map (fun p => (p.1, 1))
  ∧ (∀ fl2, fOpen (fClose (fPutAll fCreate exPs)) = .ok fl2 →
        fKeys fl2 = exPs.map (fun p => (p.1, 1))) :=
  put_close_open_get exPs exDesc (by decide) (by decide) (by decide) (by decide)

end Hep
